import Mathlib

/-!
Verification of the zod-select repository: the runtime path parser and schema
resolver (src/select.ts), and the compile-time static mirror (src/types.ts),
shallowly embedded over an inductive schema-node type whose constructors model
the discriminant tag stored in a node's def (src/guards.ts reads that tag).
-/

namespace ZodSelect

/-- A schema node. Each constructor corresponds to one value of the runtime
discriminant tag tested by the guards in src/guards.ts; the children carried by
each constructor are the ones the accessors in src/select.ts read
(shape, element, valueType, items, options, innerType, out). A leaf
carries its tag string so that error messages can name the actual kind.
The lazy constructor carries the schema its getter produces when forced. -/
inductive Schema where
  | leaf (tag : String)
  | object (shape : List (String × Schema))
  | array (element : Schema)
  | record (valueType : Schema)
  | tuple (items : List Schema)
  | union (options : List Schema)
  | optional (innerType : Schema)
  | nullable (innerType : Schema)
  | default (innerType : Schema)
  | readonly (innerType : Schema)
  | lazy (innerType : Schema)
  | pipe (inp : Schema) (out : Schema)

/-- The runtime tag string of a node, as read from the def by the guards and
interpolated into error messages as the actual kind. -/
def Schema.kind : Schema → String
  | .leaf tag => tag
  | .object _ => "object"
  | .array _ => "array"
  | .record _ => "record"
  | .tuple _ => "tuple"
  | .union _ => "union"
  | .optional _ => "optional"
  | .nullable _ => "nullable"
  | .default _ => "default"
  | .readonly _ => "readonly"
  | .lazy _ => "lazy"
  | .pipe _ _ => "pipe"

/-- A parsed path segment, as in src/select.ts. The index payload is an Int
because the TypeScript field has type number; that the parser only ever emits
non-negative indices is an invariant proved below, not a typing assumption. -/
inductive Segment where
  | property (name : String)
  | element
  | index (index : Int)
  deriving DecidableEq, Repr

/-- Parse errors raised by parsePath (the MalformedPath family). The
constructor outOfFuel is an artifact of the fuel-based embedding of the while
loop; parsePath always supplies enough fuel, so it is unreachable. -/
inductive ParseError where
  | unclosedBracket (pos : Nat)
  | invalidIndex (content : String) (pos : Nat)
  | emptyProperty (pos : Nat)
  | outOfFuel
  deriving DecidableEq, Repr

/-- Resolution errors raised by traverseSegment (the PathResolutionError
family). Every constructor carries the full path string that the source
interpolates into its message. -/
inductive ResolutionError where
  | notAnObject (prop : String) (kind : String) (path : String)
  | unknownProperty (prop : String) (path : String)
  | notElementAccessible (kind : String) (path : String)
  | tupleIndexOutOfBounds (index : Int) (length : Nat) (path : String)
  | unionIndexOutOfBounds (index : Int) (length : Nat) (path : String)
  | notIndexable (index : Int) (kind : String) (path : String)
  deriving DecidableEq, Repr

/-- The full path string carried by a resolution error. -/
def ResolutionError.pathOf : ResolutionError → String
  | .notAnObject _ _ p => p
  | .unknownProperty _ p => p
  | .notElementAccessible _ p => p
  | .tupleIndexOutOfBounds _ _ p => p
  | .unionIndexOutOfBounds _ _ p => p
  | .notIndexable _ _ p => p

/-- The message string of each resolution error, exactly as interpolated by
the throw sites in src/select.ts. -/
def errMsg : ResolutionError → String
  | .notAnObject prop kind p =>
      "Invalid path \"" ++ p ++ "\": cannot access property \"" ++ prop ++
        "\" on non-object schema (got " ++ kind ++ ")"
  | .unknownProperty prop p =>
      "Invalid path \"" ++ p ++ "\": property \"" ++ prop ++
        "\" does not exist on object schema"
  | .notElementAccessible kind p =>
      "Invalid path \"" ++ p ++ "\": cannot use [] on non-array/record schema (got " ++
        kind ++ ")"
  | .tupleIndexOutOfBounds i len p =>
      "Invalid path \"" ++ p ++ "\": tuple index " ++ toString i ++
        " out of bounds (length " ++ toString len ++ ")"
  | .unionIndexOutOfBounds i len p =>
      "Invalid path \"" ++ p ++ "\": union index " ++ toString i ++
        " out of bounds (" ++ toString len ++ " options)"
  | .notIndexable i kind p =>
      "Invalid path \"" ++ p ++ "\": cannot use [" ++ toString i ++
        "] on non-tuple/union schema (got " ++ kind ++ ")"

/-! The runtime path parser (parsePath in src/select.ts). -/

/-- Whitespace skipped by JavaScript parseInt before reading the number. -/
def isJsSpace (c : Char) : Bool :=
  c = ' ' || c = '\t' || c = '\n' || c = '\r' || c = '\x0b' || c = '\x0c'

/-- Value of the maximal digit prefix, with accumulator; seen records whether
any digit has been consumed yet. Returns none when no digit was found, which
models parseInt returning NaN. -/
def digitsPrefixVal : List Char → Nat → Bool → Option Nat
  | [], acc, seen => if seen then some acc else none
  | c :: cs, acc, seen =>
    if c.isDigit then digitsPrefixVal cs (acc * 10 + (c.toNat - 48)) true
    else if seen then some acc else none

/-- JavaScript parseInt(s, 10): skip leading whitespace, read an optional
sign, then the maximal run of decimal digits; NaN (none) when no digit
follows. Trailing characters after the digit run are ignored. -/
def parseIntJS (s : String) : Option Int :=
  match s.toList.dropWhile isJsSpace with
  | [] => none
  | c :: rest =>
    if c = '-' then (digitsPrefixVal rest 0 false).map (fun n => -(n : Int))
    else if c = '+' then (digitsPrefixVal rest 0 false).map (fun n => (n : Int))
    else (digitsPrefixVal (c :: rest) 0 false).map (fun n => (n : Int))

/-- Split a char list at the first occurrence of ch: returns the part before
and the part after, or none when ch does not occur. Models String.indexOf
together with String.slice. -/
def splitAtCh (ch : Char) : List Char → Option (List Char × List Char)
  | [] => none
  | c :: cs =>
    if c = ch then some ([], cs)
    else
      match splitAtCh ch cs with
      | none => none
      | some (pre, post) => some (c :: pre, post)

/-- One fuel unit per iteration of the while loop of parsePath. The loop
consumes at least one character per iteration, so fuel = length + 1 always
suffices. The character index i mirrors the source's cursor and feeds the
error positions. A dot at the cursor is skipped; a bracket is scanned to the
first closing bracket, its content going through parseIntJS when non-empty;
otherwise the property name is the maximal run of characters that are neither
a dot nor an opening bracket (the source computes the same run with indexOf
and Math.min). -/
def parsePathGoF : Nat → List Char → Nat → Except ParseError (List Segment)
  | 0, _, _ => .error .outOfFuel
  | _ + 1, [], _ => .ok []
  | f + 1, c :: cs, i =>
    if c = '.' then
      parsePathGoF f cs (i + 1)
    else if c = '[' then
      match splitAtCh ']' cs with
      | none => .error (.unclosedBracket i)
      | some (content, rest) =>
        if content = [] then
          (parsePathGoF f rest (i + content.length + 2)).map
            (fun segs => Segment.element :: segs)
        else
          match parseIntJS content.asString with
          | none => .error (.invalidIndex content.asString i)
          | some n =>
            if n < 0 then .error (.invalidIndex content.asString i)
            else
              (parsePathGoF f rest (i + content.length + 2)).map
                (fun segs => Segment.index n :: segs)
    else
      let name := (c :: cs).takeWhile (fun ch => !(ch = '.' || ch = '['))
      let rest := (c :: cs).dropWhile (fun ch => !(ch = '.' || ch = '['))
      if name = [] then .error (.emptyProperty i)
      else
        (parsePathGoF f rest (i + name.length)).map
          (fun segs => Segment.property name.asString :: segs)

/-- parsePath of src/select.ts. -/
def parsePath (path : String) : Except ParseError (List Segment) :=
  parsePathGoF (path.toList.length + 1) path.toList 0

/-! The runtime resolver (traverseSegment and select in src/select.ts). -/

/-- Reading a JavaScript array at a possibly negative index: any index outside
the array yields undefined (none). -/
def jsArrayGet (l : List Schema) (i : Int) : Option Schema :=
  if 0 ≤ i then l.get? i.toNat else none

/-- Result of one traverseSegment call: a schema node, the JavaScript value
undefined (reachable in the source only through a negative index, which the
parser never produces), or a thrown error. -/
inductive TravOut where
  | ok (s : Schema)
  | undef
  | err (e : ResolutionError)

/-- traverseSegment of src/select.ts: unwrap the six transparent wrapper kinds
to a fixed point (for pipe, into the output child), then dispatch on the
segment variant against the unwrapped node's kind. -/
def traverseSegment : Schema → Segment → String → TravOut
  | .optional t, seg, p => traverseSegment t seg p
  | .nullable t, seg, p => traverseSegment t seg p
  | .default t, seg, p => traverseSegment t seg p
  | .readonly t, seg, p => traverseSegment t seg p
  | .lazy t, seg, p => traverseSegment t seg p
  | .pipe _ out, seg, p => traverseSegment out seg p
  | s, .property name, p =>
    match s with
    | .object shape =>
      match shape.lookup name with
      | some child => .ok child
      | none => .err (.unknownProperty name p)
    | _ => .err (.notAnObject name s.kind p)
  | s, .element, p =>
    match s with
    | .array el => .ok el
    | .record v => .ok v
    | _ => .err (.notElementAccessible s.kind p)
  | s, .index i, p =>
    match s with
    | .tuple items =>
      if (items.length : Int) ≤ i then
        .err (.tupleIndexOutOfBounds i items.length p)
      else
        match jsArrayGet items i with
        | some x => .ok x
        | none => .undef
    | .union opts =>
      if (opts.length : Int) ≤ i then
        .err (.unionIndexOutOfBounds i opts.length p)
      else
        match jsArrayGet opts i with
        | some x => .ok x
        | none => .undef
    | _ => .err (.notIndexable i s.kind p)

/-- Outcome of a select call: the resolved node, a parse or resolution error,
the undefined value (were a negative index ever to reach the last segment), or
a JavaScript TypeError (were undefined ever fed back into traverseSegment). -/
inductive SelectOut where
  | ok (s : Schema)
  | parseError (e : ParseError)
  | resolutionError (e : ResolutionError)
  | undef
  | jsCrash

/-- The fold of select over the parsed segments, carrying the current node. -/
def runSegments : Schema → List Segment → String → SelectOut
  | s, [], _ => .ok s
  | s, seg :: rest, p =>
    match traverseSegment s seg p with
    | .ok next => runSegments next rest p
    | .undef => if rest = [] then .undef else .jsCrash
    | .err e => .resolutionError e

/-- select of src/select.ts: the empty path returns the schema unchanged
before any parsing; otherwise parse, then fold traverseSegment over the
segments, passing the original path string to every step. -/
def select (schema : Schema) (path : String) : SelectOut :=
  if path = "" then .ok schema
  else
    match parsePath path with
    | .error e => .parseError e
    | .ok segs => runSegments schema segs path

/-! The static mirror (src/types.ts). The static type of a zod schema value
mirrors the runtime node tree constructor for constructor, so the type-level
computation is embedded over the same Schema inductive; the uninhabited result
type never is modeled as none. -/

/-- TrimLeadingDot of src/types.ts: remove a single leading dot, if any. -/
def TrimLeadingDot : List Char → List Char
  | '.' :: rest => rest
  | cs => cs

/-- The template-literal match of ParsePath's bracket case: the inferred Head
is everything before the first opening bracket, and the inferred Idx runs from
there to the first closing bracket after it; when either bracket is missing
the pattern does not match (template-literal inference scans for each literal
in turn and does not backtrack). -/
def bracketSplit (cs : List Char) : Option (List Char × List Char × List Char) :=
  match splitAtCh '[' cs with
  | none => none
  | some (head, afterOpen) =>
    match splitAtCh ']' afterOpen with
    | none => none
    | some (idx, rest) => some (head, idx, rest)

/-- ParsePath of src/types.ts, with one fuel unit per recursive unfolding
(each unfolding consumes at least one character). Bracket case first: emit
Head (when non-empty) and the bracket group as segment strings, then recurse
on the rest with one leading dot trimmed; otherwise split at the first dot;
otherwise the empty string gives no segments and anything else is one
segment. -/
def ParsePathF : Nat → List Char → List (List Char)
  | 0, _ => []
  | f + 1, cs =>
    match bracketSplit cs with
    | some (head, idx, rest) =>
      let bseg := '[' :: (idx ++ [']'])
      if head = [] then bseg :: ParsePathF f (TrimLeadingDot rest)
      else head :: bseg :: ParsePathF f (TrimLeadingDot rest)
    | none =>
      match splitAtCh '.' cs with
      | some (head, rest) => head :: ParsePathF f rest
      | none => if cs = [] then [] else [cs]

/-- ParsePath applied to a path string. -/
def ParsePathTy (path : String) : List (List Char) :=
  ParsePathF (path.toList.length + 1) path.toList

/-- Value of a digit string read left to right. -/
def evalFrom (a : Nat) (cs : List Char) : Nat :=
  cs.foldl (fun x c => x * 10 + (c.toNat - 48)) a

/-- Value of a digit string. -/
def decDigitsVal (cs : List Char) : Nat := evalFrom 0 cs

/-- The constraint Num extends number of ExtractIndex, modeled on the
fragment this development quantifies over: a string is a numeric literal type
exactly when it is the canonical decimal rendering of a natural number (a
non-empty digit run with no leading zero). Strings that TypeScript would
relate to negative or non-integral numeric literals are modeled as never,
matching the restriction of the fragment theorems to canonical indices. -/
def canonicalNat : List Char → Option Nat
  | cs =>
    if cs ≠ [] ∧ cs.all Char.isDigit ∧ (cs = ['0'] ∨ cs.head? ≠ some '0') then
      some (decDigitsVal cs)
    else none

/-- IsElementAccessor of src/types.ts: the segment is exactly the empty
bracket pair. -/
def IsElementAccessor (seg : List Char) : Bool :=
  seg = ['[', ']']

/-- The bracket-stripping of ExtractIndex and IsIndexAccessor: a segment of
shape open bracket, content, close bracket with non-empty numeric content
yields the index; anything else yields never (none). -/
def ExtractIndexTy (seg : List Char) : Option Nat :=
  match seg with
  | '[' :: rest =>
    if rest.getLast? = some ']' then
      if rest.dropLast = [] then none else canonicalNat rest.dropLast
    else none
  | _ => none

/-- ResolveSegment of src/types.ts: object property lookup in the shape;
element access on array and record; index access on tuple and union (an
index outside the tuple or union, which makes the indexed access a vacuous
branch, is modeled as never); recursion through optional, nullable, default
and readonly; every other kind, including lazy and pipe which have no case
in the source conditional chain, falls through to never. -/
def ResolveSegment : Schema → List Char → Option Schema
  | .object shape, seg => shape.lookup seg.asString
  | .array el, seg => if IsElementAccessor seg then some el else none
  | .record v, seg => if IsElementAccessor seg then some v else none
  | .tuple items, seg =>
    match ExtractIndexTy seg with
    | some n => items.get? n
    | none => none
  | .union opts, seg =>
    match ExtractIndexTy seg with
    | some n => opts.get? n
    | none => none
  | .optional t, seg => ResolveSegment t seg
  | .nullable t, seg => ResolveSegment t seg
  | .default t, seg => ResolveSegment t seg
  | .readonly t, seg => ResolveSegment t seg
  | .lazy _, _ => none
  | .pipe _ _, _ => none
  | .leaf _, _ => none

/-- ResolvePath of src/types.ts: fold ResolveSegment over the segment list,
never propagating through every later step. -/
def ResolvePath : Schema → List (List Char) → Option Schema
  | T, [] => some T
  | T, seg :: rest =>
    match ResolveSegment T seg with
    | some next => ResolvePath next rest
    | none => none

/-- SchemaAt of src/types.ts: resolve the parsed path against the schema
type. -/
def SchemaAt (T : Schema) (path : String) : Option Schema :=
  ResolvePath T (ParsePathTy path)

/-! Wrapper chains, canonical path printing and the predicates used by the
fragment theorems. -/

/-- One transparent wrapper layer; pipe also records the input schema the
resolver ignores. -/
inductive WrapKind where
  | optional
  | nullable
  | default
  | readonly
  | lazy
  | pipe (inp : Schema)

/-- Wrap a schema in one wrapper layer. -/
def applyWrap : WrapKind → Schema → Schema
  | .optional, s => .optional s
  | .nullable, s => .nullable s
  | .default, s => .default s
  | .readonly, s => .readonly s
  | .lazy, s => .lazy s
  | .pipe inp, s => .pipe inp s

/-- Wrap a schema in a finite chain of wrapper layers, outermost first. -/
def wrapChain (ws : List WrapKind) (s : Schema) : Schema :=
  ws.foldr applyWrap s

/-- Decimal digits of a natural number, with fuel (one digit is produced per
unit, and a number has at most as many digits as its value when positive). -/
def natDigitsCore : Nat → Nat → List Char
  | 0, _ => []
  | _ + 1, 0 => []
  | f + 1, n + 1 =>
    natDigitsCore f ((n + 1) / 10) ++ [Nat.digitChar ((n + 1) % 10)]

/-- Canonical decimal rendering of a natural number. -/
def natDecimal (n : Nat) : List Char :=
  if n = 0 then ['0'] else natDigitsCore n n

/-- Canonical printing of one segment. -/
def printSeg : Segment → List Char
  | .property n => n.toList
  | .element => ['[', ']']
  | .index i => '[' :: (natDecimal i.toNat ++ [']'])

/-- Canonical printing of the segments after the first: a property is
preceded by a separating dot, a bracket group follows directly. -/
def printRest : List Segment → List Char
  | [] => []
  | .property n :: rest => '.' :: (n.toList ++ printRest rest)
  | .element :: rest => printSeg .element ++ printRest rest
  | .index i :: rest => printSeg (.index i) ++ printRest rest

/-- Canonical printing of a segment list as a path string. -/
def printSegs : List Segment → List Char
  | [] => []
  | s :: rest => printSeg s ++ printRest rest

/-- A character usable in a printed property name: anything but the three
path metacharacters. -/
def validNameChar (c : Char) : Bool :=
  !(c = '.' || c = '[' || c = ']')

/-- A segment in canonical form: a non-empty property name made of plain
characters, any element segment, or a non-negative index. -/
def goodSeg : Segment → Bool
  | .property n => !n.toList.isEmpty && n.toList.all validNameChar
  | .element => true
  | .index i => decide (0 ≤ i)

/-- All segments in canonical form. -/
def goodSegs (l : List Segment) : Bool := l.all goodSeg

/-- Whether a segment list contains an element or index segment. -/
def containsBracket : List Segment → Bool
  | [] => false
  | .property _ :: rest => containsBracket rest
  | .element :: _ => true
  | .index _ :: _ => true

/-- The fragment of paths on which the static parser tracks the runtime
parser: before each bracket group, at most one property name may appear since
the previous bracket group (the static parser folds everything before the
first opening bracket into a single segment string, so a dotted run directly
before a bracket is not split). -/
def mirrorFriendly : List Segment → Bool
  | [] => true
  | [.property _] => true
  | .property _ :: .property m :: rest => !containsBracket (.property m :: rest)
  | .property _ :: .element :: rest => mirrorFriendly (.element :: rest)
  | .property _ :: .index i :: rest => mirrorFriendly (.index i :: rest)
  | .element :: rest => mirrorFriendly rest
  | .index _ :: rest => mirrorFriendly rest

/-- No lazy or pipe wrapper anywhere in the schema, with fuel bounding the
inspection depth (fuel at least the tree height makes the check meaningful;
the theorems quantify over the fuel). -/
def lazyPipeFreeF : Nat → Schema → Bool
  | 0, _ => false
  | f + 1, s =>
    match s with
    | .leaf _ => true
    | .object shape => shape.all (fun kv => lazyPipeFreeF f kv.2)
    | .array e => lazyPipeFreeF f e
    | .record v => lazyPipeFreeF f v
    | .tuple items => items.all (fun it => lazyPipeFreeF f it)
    | .union opts => opts.all (fun o => lazyPipeFreeF f o)
    | .optional t => lazyPipeFreeF f t
    | .nullable t => lazyPipeFreeF f t
    | .default t => lazyPipeFreeF f t
    | .readonly t => lazyPipeFreeF f t
    | .lazy _ => false
    | .pipe _ _ => false

/-- Non-negativity of the index payload of a segment. -/
def segNonneg : Segment → Bool
  | .index i => decide (0 ≤ i)
  | _ => true

/-- Every index segment of a successful parse is non-negative (trivially true
of failed parses). -/
def parseAllNonneg : Except ParseError (List Segment) → Bool
  | .ok l => l.all segNonneg
  | .error _ => true

/-- A property segment carries a non-empty name; other segments trivially
satisfy this. -/
def segNameNonempty : Segment → Bool
  | .property n => !(n = "")
  | .element => true
  | .index _ => true

/-- No property segment of a successful parse has an empty name. -/
def parseNoEmptyName : Except ParseError (List Segment) → Bool
  | .ok l => l.all segNameNonempty
  | .error _ => true

/-- The select outcome is neither the undefined value nor a TypeError. -/
def selectDefined : SelectOut → Bool
  | .undef => false
  | .jsCrash => false
  | _ => true

/-- Whether the node kind is one of the six transparent wrapper kinds that
traverseSegment unwraps before dispatching. -/
def isWrapperKind : Schema → Bool
  | .optional _ => true
  | .nullable _ => true
  | .default _ => true
  | .readonly _ => true
  | .lazy _ => true
  | .pipe _ _ => true
  | .leaf _ => false
  | .object _ => false
  | .array _ => false
  | .record _ => false
  | .tuple _ => false
  | .union _ => false

/-- Whether the node is a tuple or a union. -/
def isTupleOrUnion : Schema → Bool
  | .tuple _ => true
  | .union _ => true
  | .leaf _ => false
  | .object _ => false
  | .array _ => false
  | .record _ => false
  | .optional _ => false
  | .nullable _ => false
  | .default _ => false
  | .readonly _ => false
  | .lazy _ => false
  | .pipe _ _ => false

/-! Helper lemmas about strings, lists and decimal digits. -/

theorem toList_asString (l : List Char) : l.asString.toList = l := rfl

theorem asString_toList (s : String) : s.toList.asString = s := by
  cases s
  rfl

theorem asString_eq_empty {l : List Char} (h : l.asString = "") : l = [] := by
  have := congrArg String.toList h
  simpa [toList_asString] using this

theorem splitAtCh_cons_self (ch : Char) (ys : List Char) :
    splitAtCh ch (ch :: ys) = some ([], ys) := by
  simp [splitAtCh]

theorem splitAtCh_append {ch : Char} {xs : List Char} (ys : List Char)
    (h : xs.all (fun c => !(c = ch)) = true) :
    splitAtCh ch (xs ++ ch :: ys) = some (xs, ys) := by
  induction xs with
  | nil => simp [splitAtCh]
  | cons c cs ih =>
    simp only [List.all_cons, Bool.and_eq_true, Bool.not_eq_true', decide_eq_false_iff_not] at h
    simp [splitAtCh, h.1, ih h.2]

theorem splitAtCh_none {ch : Char} {cs : List Char}
    (h : cs.all (fun c => !(c = ch)) = true) :
    splitAtCh ch cs = none := by
  induction cs with
  | nil => rfl
  | cons c cs ih =>
    simp only [List.all_cons, Bool.and_eq_true, Bool.not_eq_true', decide_eq_false_iff_not] at h
    simp [splitAtCh, h.1, ih h.2]

theorem takeWhile_append_all {p : Char → Bool} {xs : List Char} (ys : List Char)
    (h : xs.all p = true) :
    (xs ++ ys).takeWhile p = xs ++ ys.takeWhile p := by
  induction xs with
  | nil => simp
  | cons c cs ih =>
    simp only [List.all_cons, Bool.and_eq_true] at h
    simp [List.takeWhile_cons, h.1, ih h.2]

theorem dropWhile_append_all {p : Char → Bool} {xs : List Char} (ys : List Char)
    (h : xs.all p = true) :
    (xs ++ ys).dropWhile p = ys.dropWhile p := by
  induction xs with
  | nil => simp
  | cons c cs ih =>
    simp only [List.all_cons, Bool.and_eq_true] at h
    simp [List.dropWhile_cons, h.1, ih h.2]

theorem takeWhile_cons_neg {p : Char → Bool} {c : Char} (l : List Char)
    (h : p c = false) : (c :: l).takeWhile p = [] := by
  simp [List.takeWhile_cons, h]

theorem dropWhile_cons_neg {p : Char → Bool} {c : Char} (l : List Char)
    (h : p c = false) : (c :: l).dropWhile p = c :: l := by
  simp [List.dropWhile_cons, h]

theorem digitChar_isDigit {d : Nat} (h : d < 10) :
    (Nat.digitChar d).isDigit = true := by
  interval_cases d <;> decide

theorem digitChar_val {d : Nat} (h : d < 10) :
    (Nat.digitChar d).toNat - 48 = d := by
  interval_cases d <;> decide

theorem digitChar_ne_zero {d : Nat} (h1 : 0 < d) (h2 : d < 10) :
    Nat.digitChar d ≠ '0' := by
  interval_cases d <;> decide

theorem isDigit_facts {c : Char} (h : c.isDigit = true) :
    c ≠ ']' ∧ c ≠ '.' ∧ c ≠ '[' ∧ c ≠ '-' ∧ c ≠ '+' ∧ isJsSpace c = false := by
  refine ⟨?_, ?_, ?_, ?_, ?_, ?_⟩
  case _ => intro he; rw [he] at h; exact absurd h (by decide)
  case _ => intro he; rw [he] at h; exact absurd h (by decide)
  case _ => intro he; rw [he] at h; exact absurd h (by decide)
  case _ => intro he; rw [he] at h; exact absurd h (by decide)
  case _ => intro he; rw [he] at h; exact absurd h (by decide)
  case _ =>
    cases hs : isJsSpace c with
    | false => rfl
    | true =>
      simp only [isJsSpace, Bool.or_eq_true, decide_eq_true_eq] at hs
      rcases hs with (((((h1 | h1) | h1) | h1) | h1) | h1) <;>
        (rw [h1] at h; exact absurd h (by decide))

theorem evalFrom_nil (a : Nat) : evalFrom a [] = a := rfl

theorem evalFrom_cons (a : Nat) (c : Char) (cs : List Char) :
    evalFrom a (c :: cs) = evalFrom (a * 10 + (c.toNat - 48)) cs := rfl

theorem evalFrom_append (a : Nat) (xs ys : List Char) :
    evalFrom a (xs ++ ys) = evalFrom (evalFrom a xs) ys := by
  simp [evalFrom, List.foldl_append]

theorem digitsPrefixVal_true_all {ds : List Char} (h : ds.all Char.isDigit = true) :
    ∀ a, digitsPrefixVal ds a true = some (evalFrom a ds) := by
  induction ds with
  | nil => intro a; rfl
  | cons c cs ih =>
    intro a
    simp only [List.all_cons, Bool.and_eq_true] at h
    rw [digitsPrefixVal, if_pos h.1, ih h.2, evalFrom_cons]

theorem digitsPrefixVal_start {c : Char} {cs : List Char}
    (hc : c.isDigit = true) (hcs : cs.all Char.isDigit = true) (a : Nat) :
    digitsPrefixVal (c :: cs) a false = some (evalFrom a (c :: cs)) := by
  rw [digitsPrefixVal, if_pos hc, digitsPrefixVal_true_all hcs, evalFrom_cons]

theorem parseIntJS_digits {ds : List Char} (h1 : ds ≠ [])
    (h2 : ds.all Char.isDigit = true) :
    parseIntJS ds.asString = some ((decDigitsVal ds : Nat) : Int) := by
  cases ds with
  | nil => exact absurd rfl h1
  | cons c cs =>
    have hall := h2
    simp only [List.all_cons, Bool.and_eq_true] at h2
    obtain ⟨_, _, _, hm, hp, hs⟩ := isDigit_facts h2.1
    rw [parseIntJS, toList_asString, dropWhile_cons_neg _ hs]
    simp only [if_neg hm, if_neg hp]
    rw [digitsPrefixVal_start h2.1 h2.2]
    rfl

theorem natDigitsCore_zero (f : Nat) : natDigitsCore f 0 = [] := by
  cases f <;> rfl

theorem natDigitsCore_eval :
    ∀ f n a, n ≤ f →
      evalFrom a (natDigitsCore f n) = a * 10 ^ (natDigitsCore f n).length + n := by
  intro f
  induction f with
  | zero =>
    intro n a h
    have : n = 0 := Nat.le_zero.mp h
    subst this
    simp [natDigitsCore, evalFrom]
  | succ f ih =>
    intro n a h
    cases n with
    | zero => simp [natDigitsCore, evalFrom]
    | succ m =>
      have hq : (m + 1) / 10 ≤ f := by
        have h1 : (m + 1) / 10 < m + 1 := Nat.div_lt_self (Nat.succ_pos m) (by norm_num)
        omega
      rw [natDigitsCore, evalFrom_append, ih _ _ hq]
      have hr : (m + 1) % 10 < 10 := Nat.mod_lt _ (by norm_num)
      rw [evalFrom_cons, evalFrom_nil, digitChar_val hr]
      have hdm : 10 * ((m + 1) / 10) + (m + 1) % 10 = m + 1 := Nat.div_add_mod (m + 1) 10
      simp only [List.length_append, List.length_cons, List.length_nil]
      set k := (natDigitsCore f ((m + 1) / 10)).length
      calc (a * 10 ^ k + (m + 1) / 10) * 10 + (m + 1) % 10
        = a * 10 ^ (k + (0 + 1)) + (10 * ((m + 1) / 10) + (m + 1) % 10) := by ring
      _ = a * 10 ^ (k + (0 + 1)) + (m + 1) := by rw [hdm]

theorem natDigitsCore_all_digit : ∀ f n, (natDigitsCore f n).all Char.isDigit = true := by
  intro f
  induction f with
  | zero => intro n; rfl
  | succ f ih =>
    intro n
    cases n with
    | zero => rfl
    | succ m =>
      rw [natDigitsCore, List.all_append, ih]
      have hr : (m + 1) % 10 < 10 := Nat.mod_lt _ (by norm_num)
      simp [digitChar_isDigit hr]

theorem natDigitsCore_head :
    ∀ f n, 0 < n → n ≤ f →
      ∃ c cs, natDigitsCore f n = c :: cs ∧ c ≠ '0' := by
  intro f
  induction f with
  | zero => intro n h1 h2; omega
  | succ f ih =>
    intro n h1 h2
    cases n with
    | zero => omega
    | succ m =>
      rw [natDigitsCore]
      have hr : (m + 1) % 10 < 10 := Nat.mod_lt _ (by norm_num)
      by_cases hq : (m + 1) / 10 = 0
      · have hrm : (m + 1) % 10 = m + 1 := by omega
        refine ⟨Nat.digitChar ((m + 1) % 10), [], ?_, ?_⟩
        · rw [hq, natDigitsCore_zero]
          rfl
        · exact digitChar_ne_zero (by omega) hr
      · have hq2 : (m + 1) / 10 ≤ f := by
          have := Nat.div_lt_self (Nat.succ_pos m) (show 1 < 10 by norm_num)
          omega
        obtain ⟨c, cs, heq, hne⟩ := ih _ (Nat.pos_of_ne_zero hq) hq2
        exact ⟨c, cs ++ [Nat.digitChar ((m + 1) % 10)], by rw [heq]; rfl, hne⟩

theorem natDecimal_ne_nil (n : Nat) : natDecimal n ≠ [] := by
  rw [natDecimal]
  by_cases h : n = 0
  · simp [h]
  · rw [if_neg h]
    obtain ⟨c, cs, heq, _⟩ := natDigitsCore_head n n (Nat.pos_of_ne_zero h) le_rfl
    rw [heq]
    simp

theorem natDecimal_all_digit (n : Nat) : (natDecimal n).all Char.isDigit = true := by
  rw [natDecimal]
  by_cases h : n = 0
  · simp [h]
  · rw [if_neg h]
    exact natDigitsCore_all_digit n n

theorem natDecimal_eval (n : Nat) : decDigitsVal (natDecimal n) = n := by
  rw [natDecimal]
  by_cases h : n = 0
  · simp [h]
    decide
  · rw [if_neg h, decDigitsVal, natDigitsCore_eval n n 0 le_rfl]
    simp

theorem canonicalNat_natDecimal (n : Nat) : canonicalNat (natDecimal n) = some n := by
  rw [canonicalNat]
  rw [if_pos, natDecimal_eval]
  refine ⟨natDecimal_ne_nil n, natDecimal_all_digit n, ?_⟩
  by_cases h : n = 0
  · left
    simp [natDecimal, h]
  · right
    rw [natDecimal, if_neg h]
    obtain ⟨c, cs, heq, hne⟩ := natDigitsCore_head n n (Nat.pos_of_ne_zero h) le_rfl
    rw [heq]
    simpa using hne

/-! The runtime parser recovers a canonical segment list from its printed
path. -/

theorem p0_of_valid {c : Char} (h : validNameChar c = true) :
    (!(c = '.' || c = '[')) = true := by
  simp only [validNameChar, Bool.not_eq_true', Bool.or_eq_false_iff,
    decide_eq_false_iff_not] at h ⊢
  exact ⟨h.1.1, h.1.2⟩

theorem all_p0_of_valid {l : List Char} (h : l.all validNameChar = true) :
    l.all (fun c => !(c = '.' || c = '[')) = true := by
  rw [List.all_eq_true] at h ⊢
  intro c hc
  exact p0_of_valid (h c hc)

theorem all_ne_rbracket_of_digits {l : List Char} (h : l.all Char.isDigit = true) :
    l.all (fun c => !(c = ']')) = true := by
  rw [List.all_eq_true] at h ⊢
  intro c hc
  simpa using (isDigit_facts (h c hc)).1

theorem printRest_property (n : String) (rest : List Segment) :
    printRest (.property n :: rest) = '.' :: printSegs (.property n :: rest) := by
  rfl

theorem printRest_element (rest : List Segment) :
    printRest (.element :: rest) = printSegs (.element :: rest) := rfl

theorem printRest_index (i : Int) (rest : List Segment) :
    printRest (.index i :: rest) = printSegs (.index i :: rest) := rfl

theorem printRest_scan (rest : List Segment) :
    (printRest rest).takeWhile (fun ch => !(ch = '.' || ch = '[')) = [] ∧
      (printRest rest).dropWhile (fun ch => !(ch = '.' || ch = '[')) = printRest rest := by
  cases rest with
  | nil => exact ⟨rfl, rfl⟩
  | cons s rest2 =>
    cases s with
    | property m =>
      rw [printRest]
      exact ⟨takeWhile_cons_neg _ (by decide), dropWhile_cons_neg _ (by decide)⟩
    | element =>
      rw [printRest, printSeg]
      exact ⟨takeWhile_cons_neg _ (by decide), dropWhile_cons_neg _ (by decide)⟩
    | index j =>
      rw [printRest, printSeg]
      exact ⟨takeWhile_cons_neg _ (by decide), dropWhile_cons_neg _ (by decide)⟩

theorem parsePathGoF_printSegs :
    ∀ (L : List Segment) (f i : Nat), goodSegs L = true →
      (printSegs L).length < f → parsePathGoF f (printSegs L) i = .ok L := by
  intro L
  induction L with
  | nil =>
    intro f i _ hf
    cases f with
    | zero => omega
    | succ f2 => rfl
  | cons s rest ih =>
    have hcont : ∀ f2 i2, goodSegs rest = true →
        (printRest rest).length < f2 →
        parsePathGoF f2 (printRest rest) i2 = .ok rest := by
      intro f2 i2 hg hf2
      cases rest with
      | nil =>
        cases f2 with
        | zero => omega
        | succ f3 => rfl
      | cons t rest2 =>
        cases t with
        | property m =>
          rw [printRest_property] at hf2 ⊢
          cases f2 with
          | zero => omega
          | succ f3 =>
            rw [parsePathGoF, if_pos rfl]
            apply ih _ _ hg
            simp only [List.length_cons] at hf2
            omega
        | element =>
          rw [printRest_element] at hf2 ⊢
          exact ih _ _ hg hf2
        | index j =>
          rw [printRest_index] at hf2 ⊢
          exact ih _ _ hg hf2
    intro f i hgood hf
    rw [goodSegs, List.all_cons, Bool.and_eq_true] at hgood
    obtain ⟨hs, hrest⟩ := hgood
    cases s with
    | property n =>
      rw [goodSeg, Bool.and_eq_true, Bool.not_eq_true', List.isEmpty_eq_false_iff_exists_mem]
        at hs
      obtain ⟨⟨c0, hc0⟩, hvalid⟩ := hs
      have hnl : n.toList ≠ [] := by
        intro h
        rw [h] at hc0
        exact absurd hc0 (List.not_mem_nil c0)
      obtain ⟨c, cs, hncs⟩ : ∃ c cs, n.toList = c :: cs := by
        cases hnl2 : n.toList with
        | nil => exact absurd hnl2 hnl
        | cons a as => exact ⟨a, as, rfl⟩
      have hprint : printSegs (.property n :: rest) = c :: (cs ++ printRest rest) := by
        rw [printSegs, printSeg, hncs]
        rfl
      rw [hprint] at hf ⊢
      cases f with
      | zero => omega
      | succ f2 =>
        have hvc : validNameChar c = true := by
          rw [List.all_eq_true] at hvalid
          exact hvalid c (by rw [hncs]; exact List.mem_cons_self c cs)
        have hc_facts : ¬c = '.' ∧ ¬c = '[' := by
          simp only [validNameChar, Bool.not_eq_true', Bool.or_eq_false_iff,
            decide_eq_false_iff_not] at hvc
          exact ⟨hvc.1.1, hvc.1.2⟩
        rw [parsePathGoF, if_neg hc_facts.1, if_neg hc_facts.2]
        have hall : (c :: cs).all (fun ch => !(ch = '.' || ch = '[')) = true := by
          apply all_p0_of_valid
          rw [← hncs]
          exact hvalid
        have hcons : (c :: (cs ++ printRest rest)) = (c :: cs) ++ printRest rest := rfl
        rw [hcons, takeWhile_append_all _ hall, dropWhile_append_all _ hall,
          (printRest_scan rest).1, (printRest_scan rest).2, List.append_nil]
        rw [if_neg (by simp)]
        rw [← hncs, asString_toList]
        have hlen : (printRest rest).length < f2 := by
          simp only [List.length_cons, List.length_append] at hf
          omega
        rw [hcont f2 _ hrest hlen]
        rfl
    | element =>
      have hprint : printSegs (.element :: rest) = '[' :: (']' :: printRest rest) := by
        rfl
      rw [hprint] at hf ⊢
      cases f with
      | zero => omega
      | succ f2 =>
        rw [parsePathGoF, if_neg (by decide), if_pos rfl, splitAtCh_cons_self]
        simp only []
        rw [if_pos trivial]
        have hlen : (printRest rest).length < f2 := by
          simp only [List.length_cons] at hf
          omega
        rw [hcont f2 _ hrest hlen]
        rfl
    | index j =>
      rw [goodSeg, decide_eq_true_eq] at hs
      have hprint : printSegs (.index j :: rest) =
          '[' :: (natDecimal j.toNat ++ ']' :: printRest rest) := by
        rw [printSegs, printSeg]
        simp
      rw [hprint] at hf ⊢
      cases f with
      | zero => omega
      | succ f2 =>
        rw [parsePathGoF, if_neg (by decide), if_pos rfl,
          splitAtCh_append _ (all_ne_rbracket_of_digits (natDecimal_all_digit j.toNat))]
        simp only []
        rw [if_neg (natDecimal_ne_nil j.toNat),
          parseIntJS_digits (natDecimal_ne_nil j.toNat) (natDecimal_all_digit j.toNat)]
        simp only []
        rw [if_neg (by omega), natDecimal_eval]
        have hlen : (printRest rest).length < f2 := by
          simp only [List.length_cons, List.length_append] at hf
          omega
        rw [hcont f2 _ hrest hlen]
        simp only [Except.map]
        rw [Int.toNat_of_nonneg hs]

theorem parsePath_printSegs {L : List Segment} (h : goodSegs L = true) :
    parsePath (printSegs L).asString = .ok L := by
  rw [parsePath, toList_asString]
  exact parsePathGoF_printSegs L _ 0 h (Nat.lt_succ_self _)

/-! The static parser recovers the same segmentation from a printed
mirror-friendly segment list. -/

theorem all_ne_dot_of_valid {l : List Char} (h : l.all validNameChar = true) :
    l.all (fun c => !(c = '.')) = true := by
  rw [List.all_eq_true] at h ⊢
  intro c hc
  have := h c hc
  simp only [validNameChar, Bool.not_eq_true', Bool.or_eq_false_iff,
    decide_eq_false_iff_not] at this
  simpa using this.1.1

theorem all_ne_lbracket_of_valid {l : List Char} (h : l.all validNameChar = true) :
    l.all (fun c => !(c = '[')) = true := by
  rw [List.all_eq_true] at h ⊢
  intro c hc
  have := h c hc
  simp only [validNameChar, Bool.not_eq_true', Bool.or_eq_false_iff,
    decide_eq_false_iff_not] at this
  simpa using this.1.2

theorem noLBracketChars :
    ∀ L, goodSegs L = true → containsBracket L = false →
      (printSegs L).all (fun c => !(c = '[')) = true ∧
        (printRest L).all (fun c => !(c = '[')) = true := by
  intro L
  induction L with
  | nil => exact fun _ _ => ⟨rfl, rfl⟩
  | cons s rest ih =>
    intro hg hb
    cases s with
    | property n =>
      rw [goodSegs, List.all_cons, Bool.and_eq_true] at hg
      rw [containsBracket] at hb
      have ihr := ih hg.2 hb
      have hn : n.toList.all (fun c => !(c = '[')) = true :=
        all_ne_lbracket_of_valid (Bool.and_eq_true .. ▸ hg.1).2
      constructor
      · rw [printSegs, printSeg, List.all_append, hn]
        simpa using ihr.2
      · rw [printRest, List.all_cons, List.all_append, hn]
        simpa using ihr.2
    | element => exact absurd hb (by rw [containsBracket]; simp)
    | index j => exact absurd hb (by rw [containsBracket]; simp)

theorem trimLeadingDot_printRest (rest : List Segment) :
    TrimLeadingDot (printRest rest) = printSegs rest := by
  cases rest with
  | nil => rfl
  | cons s rest2 =>
    cases s with
    | property n => rfl
    | element => rfl
    | index j => rfl

theorem containsBracket_false_of_cons {s : Segment} {rest : List Segment}
    (h : containsBracket (s :: rest) = false) :
    containsBracket rest = false := by
  cases s with
  | property n => rwa [containsBracket] at h
  | element => exact absurd h (by rw [containsBracket]; simp)
  | index j => exact absurd h (by rw [containsBracket]; simp)

theorem ParsePathF_props :
    ∀ L, goodSegs L = true → containsBracket L = false →
      ∀ f, (printSegs L).length < f → ParsePathF f (printSegs L) = L.map printSeg := by
  intro L
  induction L with
  | nil =>
    intro _ _ f hf
    cases f with
    | zero => omega
    | succ f2 => rfl
  | cons s rest ih =>
    intro hg hb f hf
    cases s with
    | property n =>
      rw [goodSegs, List.all_cons, Bool.and_eq_true] at hg
      obtain ⟨hseg, hrest⟩ := hg
      rw [goodSeg, Bool.and_eq_true] at hseg
      have hvalid := hseg.2
      rw [containsBracket] at hb
      have hnob := noLBracketChars (.property n :: rest) (by
        rw [goodSegs, List.all_cons, Bool.and_eq_true]
        exact ⟨by rw [goodSeg, Bool.and_eq_true]; exact hseg, hrest⟩) (by
        rw [containsBracket]; exact hb)
      cases f with
      | zero => omega
      | succ f2 =>
        rw [ParsePathF, bracketSplit, splitAtCh_none hnob.1]
        simp only []
        cases rest with
        | nil =>
          rw [printSegs, printSeg, printRest, List.append_nil] at hf ⊢
          rw [splitAtCh_none (all_ne_dot_of_valid hvalid)]
          simp only []
          rw [if_neg]
          · rfl
          · intro hempty
            rw [hempty] at hseg
            exact absurd hseg.1 (by decide)
        | cons t rest2 =>
          cases t with
          | element => exact absurd hb (by rw [containsBracket]; simp)
          | index j => exact absurd hb (by rw [containsBracket]; simp)
          | property m =>
            have hprint : printSegs (Segment.property n :: Segment.property m :: rest2) =
                n.toList ++ '.' :: printSegs (Segment.property m :: rest2) := by
              rw [printSegs, printSeg, printRest]
              rfl
            rw [hprint] at hf ⊢
            rw [splitAtCh_append _ (all_ne_dot_of_valid hvalid)]
            simp only [List.map_cons]
            rw [ih hrest hb f2 (by
              simp only [List.length_append, List.length_cons] at hf
              omega)]
            rfl
    | element => exact absurd hb (by rw [containsBracket]; simp)
    | index j => exact absurd hb (by rw [containsBracket]; simp)

theorem printSegs_length_le_printRest (rest : List Segment) :
    (printSegs rest).length ≤ (printRest rest).length := by
  cases rest with
  | nil => exact le_rfl
  | cons s rest2 =>
    cases s with
    | property n =>
      rw [printRest_property]
      simp
    | element => rw [printRest_element]
    | index j => rw [printRest_index]

theorem printSegs_prop_element (n : String) (rest2 : List Segment) :
    printSegs (.property n :: .element :: rest2) =
      n.toList ++ '[' :: ([] ++ ']' :: printRest rest2) := by
  rw [printSegs, printSeg, printRest_element, printSegs, printSeg]
  simp

theorem printSegs_prop_index (n : String) (j : Int) (rest2 : List Segment) :
    printSegs (.property n :: .index j :: rest2) =
      n.toList ++ '[' :: (natDecimal j.toNat ++ ']' :: printRest rest2) := by
  rw [printSegs, printSeg, printRest_index, printSegs, printSeg]
  simp

theorem printSegs_element_start (rest : List Segment) :
    printSegs (.element :: rest) = '[' :: ([] ++ ']' :: printRest rest) := by
  rw [printSegs, printSeg]
  simp

theorem printSegs_index_start (j : Int) (rest : List Segment) :
    printSegs (.index j :: rest) = '[' :: (natDecimal j.toNat ++ ']' :: printRest rest) := by
  rw [printSegs, printSeg]
  simp

theorem bracketSplit_of_parts (head mid tail : List Char)
    (h1 : head.all (fun c => !(c = '[')) = true)
    (h2 : mid.all (fun c => !(c = ']')) = true) :
    bracketSplit (head ++ '[' :: (mid ++ ']' :: tail)) = some (head, mid, tail) := by
  rw [bracketSplit, splitAtCh_append _ h1]
  simp only []
  rw [splitAtCh_append _ h2]

theorem ParsePathF_printSegs :
    ∀ (k : Nat) (L : List Segment), L.length ≤ k → goodSegs L = true →
      mirrorFriendly L = true →
      ∀ f, (printSegs L).length < f → ParsePathF f (printSegs L) = L.map printSeg := by
  intro k
  induction k with
  | zero =>
    intro L hk _ _ f hf
    have : L = [] := List.length_eq_zero.mp (Nat.le_zero.mp hk)
    subst this
    cases f with
    | zero => omega
    | succ f2 => rfl
  | succ k ihk =>
    intro L hk hg hm f hf
    have hbrCont : ∀ (rest2 : List Segment) f2, rest2.length ≤ k →
        goodSegs rest2 = true → mirrorFriendly rest2 = true →
        (printSegs rest2).length < f2 →
        ParsePathF f2 (TrimLeadingDot (printRest rest2)) = rest2.map printSeg := by
      intro rest2 f2 h1 h2 h3 h4
      rw [trimLeadingDot_printRest]
      exact ihk rest2 h1 h2 h3 f2 h4
    cases L with
    | nil =>
      cases f with
      | zero => omega
      | succ f2 => rfl
    | cons s rest =>
      cases s with
      | property n =>
        rw [goodSegs, List.all_cons, Bool.and_eq_true] at hg
        obtain ⟨hseg, hrest⟩ := hg
        have hvalid : n.toList.all validNameChar = true :=
          (Bool.and_eq_true .. ▸ hseg).2
        have hnonempty : ¬n.toList = [] := by
          intro hempty
          rw [goodSeg, Bool.and_eq_true, hempty] at hseg
          exact absurd hseg.1 (by decide)
        cases rest with
        | nil =>
          exact ParsePathF_props [.property n]
            (by rw [goodSegs, List.all_cons]; simp [hseg]) rfl f hf
        | cons t rest2 =>
          cases t with
          | property m =>
            rw [mirrorFriendly, Bool.not_eq_true'] at hm
            exact ParsePathF_props (.property n :: .property m :: rest2)
              (by rw [goodSegs, List.all_cons, Bool.and_eq_true]; exact ⟨hseg, hrest⟩)
              (by rw [containsBracket]; exact hm) f hf
          | element =>
            rw [mirrorFriendly, mirrorFriendly] at hm
            rw [List.all_cons, Bool.and_eq_true] at hrest
            rw [printSegs_prop_element] at hf ⊢
            cases f with
            | zero => omega
            | succ f2 =>
              rw [ParsePathF,
                bracketSplit_of_parts n.toList [] _ (all_ne_lbracket_of_valid hvalid) rfl]
              simp only []
              rw [if_neg hnonempty]
              rw [hbrCont rest2 f2 (by simp at hk; omega) hrest.2 hm (by
                have hle := printSegs_length_le_printRest rest2
                simp only [List.length_append, List.length_cons, List.length_nil] at hf
                omega)]
              rfl
          | index j =>
            rw [mirrorFriendly, mirrorFriendly] at hm
            rw [List.all_cons, Bool.and_eq_true] at hrest
            have hmid := natDecimal_all_digit j.toNat
            rw [printSegs_prop_index] at hf ⊢
            cases f with
            | zero => omega
            | succ f2 =>
              rw [ParsePathF,
                bracketSplit_of_parts n.toList (natDecimal j.toNat) _
                  (all_ne_lbracket_of_valid hvalid) (all_ne_rbracket_of_digits hmid)]
              simp only []
              rw [if_neg hnonempty]
              rw [hbrCont rest2 f2 (by simp at hk; omega) hrest.2 hm (by
                have hle := printSegs_length_le_printRest rest2
                simp only [List.length_append, List.length_cons] at hf
                omega)]
              rfl
      | element =>
        rw [mirrorFriendly] at hm
        rw [goodSegs, List.all_cons, Bool.and_eq_true] at hg
        rw [printSegs_element_start] at hf ⊢
        cases f with
        | zero => omega
        | succ f2 =>
          rw [ParsePathF, show ('[' :: ([] ++ ']' :: printRest rest) : List Char) =
            [] ++ '[' :: ([] ++ ']' :: printRest rest) from rfl,
            bracketSplit_of_parts [] [] _ rfl rfl]
          simp only []
          rw [if_pos trivial]
          rw [hbrCont rest f2 (by simp at hk; omega) hg.2 hm (by
            have hle := printSegs_length_le_printRest rest
            simp only [List.length_cons, List.length_append] at hf
            omega)]
          rfl
      | index j =>
        rw [mirrorFriendly] at hm
        rw [goodSegs, List.all_cons, Bool.and_eq_true] at hg
        have hmid := natDecimal_all_digit j.toNat
        rw [printSegs_index_start] at hf ⊢
        cases f with
        | zero => omega
        | succ f2 =>
          rw [ParsePathF, show ('[' :: (natDecimal j.toNat ++ ']' :: printRest rest) : List Char) =
            [] ++ '[' :: (natDecimal j.toNat ++ ']' :: printRest rest) from rfl,
            bracketSplit_of_parts [] (natDecimal j.toNat) _ rfl
              (all_ne_rbracket_of_digits hmid)]
          simp only []
          rw [if_pos trivial]
          rw [hbrCont rest f2 (by simp at hk; omega) hg.2 hm (by
            have hle := printSegs_length_le_printRest rest
            simp only [List.length_cons, List.length_append] at hf
            omega)]
          rfl

/-! Dispatch equations for traverseSegment and wrapper transparency. -/

theorem traverseSegment_optional (t : Schema) (seg : Segment) (p : String) :
    traverseSegment (.optional t) seg p = traverseSegment t seg p := by
  cases seg <;> rfl

theorem traverseSegment_nullable (t : Schema) (seg : Segment) (p : String) :
    traverseSegment (.nullable t) seg p = traverseSegment t seg p := by
  cases seg <;> rfl

theorem traverseSegment_default (t : Schema) (seg : Segment) (p : String) :
    traverseSegment (.default t) seg p = traverseSegment t seg p := by
  cases seg <;> rfl

theorem traverseSegment_readonly (t : Schema) (seg : Segment) (p : String) :
    traverseSegment (.readonly t) seg p = traverseSegment t seg p := by
  cases seg <;> rfl

theorem traverseSegment_lazy (t : Schema) (seg : Segment) (p : String) :
    traverseSegment (.lazy t) seg p = traverseSegment t seg p := by
  cases seg <;> rfl

theorem traverseSegment_pipe (a t : Schema) (seg : Segment) (p : String) :
    traverseSegment (.pipe a t) seg p = traverseSegment t seg p := by
  cases seg <;> rfl

theorem traverseSegment_applyWrap (w : WrapKind) (C : Schema) (seg : Segment)
    (p : String) :
    traverseSegment (applyWrap w C) seg p = traverseSegment C seg p := by
  cases w with
  | optional => exact traverseSegment_optional C seg p
  | nullable => exact traverseSegment_nullable C seg p
  | default => exact traverseSegment_default C seg p
  | readonly => exact traverseSegment_readonly C seg p
  | lazy => exact traverseSegment_lazy C seg p
  | pipe a => exact traverseSegment_pipe a C seg p

theorem traverseSegment_wrapChain (ws : List WrapKind) (C : Schema) (seg : Segment)
    (p : String) :
    traverseSegment (wrapChain ws C) seg p = traverseSegment C seg p := by
  induction ws with
  | nil => rfl
  | cons w ws ih =>
    rw [wrapChain, List.foldr_cons]
    rw [show ws.foldr applyWrap C = wrapChain ws C from rfl]
    rw [traverseSegment_applyWrap, ih]

theorem runSegments_wrapChain (ws : List WrapKind) (C : Schema) (seg : Segment)
    (rest : List Segment) (p : String) :
    runSegments (wrapChain ws C) (seg :: rest) p = runSegments C (seg :: rest) p := by
  rw [runSegments, runSegments, traverseSegment_wrapChain]

/-! Absence of lazy and pipe wrappers is monotone in the fuel and preserved by
every successful traversal step. -/

theorem lazyPipeFreeF_mono :
    ∀ f (S : Schema) g, lazyPipeFreeF f S = true → f ≤ g → lazyPipeFreeF g S = true := by
  intro f
  induction f with
  | zero =>
    intro S g h _
    rw [lazyPipeFreeF] at h
    exact absurd h (by decide)
  | succ f ih =>
    intro S g h hle
    cases g with
    | zero => omega
    | succ g2 =>
      have hle2 : f ≤ g2 := by omega
      cases S <;> rw [lazyPipeFreeF] at h ⊢
      case object shape =>
        rw [List.all_eq_true] at h ⊢
        intro kv hkv
        exact ih kv.2 g2 (h kv hkv) hle2
      case array e => exact ih e g2 h hle2
      case record v => exact ih v g2 h hle2
      case tuple items =>
        rw [List.all_eq_true] at h ⊢
        intro it hit
        exact ih it g2 (h it hit) hle2
      case union opts =>
        rw [List.all_eq_true] at h ⊢
        intro o ho
        exact ih o g2 (h o ho) hle2
      case optional t => exact ih t g2 h hle2
      case nullable t => exact ih t g2 h hle2
      case default t => exact ih t g2 h hle2
      case readonly t => exact ih t g2 h hle2
      case lazy t => exact h
      case pipe a b => exact h

theorem lookup_all {shape : List (String × Schema)} {name : String} {X : Schema}
    {p : Schema → Bool} (h : shape.lookup name = some X)
    (hall : shape.all (fun kv => p kv.2) = true) : p X = true := by
  induction shape with
  | nil => exact absurd h (by rw [List.lookup]; simp)
  | cons kv rest ih =>
    rw [List.all_cons, Bool.and_eq_true] at hall
    rw [List.lookup] at h
    cases he : (name == kv.1) with
    | true =>
      rw [he] at h
      simp only [] at h
      injection h with h2
      rw [← h2]
      exact hall.1
    | false =>
      rw [he] at h
      simp only [] at h
      exact ih h hall.2

theorem jsArrayGet_mem {items : List Schema} {i : Int} {X : Schema}
    (h : jsArrayGet items i = some X) : X ∈ items := by
  rw [jsArrayGet] at h
  by_cases hi : 0 ≤ i
  · rw [if_pos hi] at h
    exact List.get?_mem h
  · rw [if_neg hi] at h
    exact absurd h (by simp)

theorem lazyPipeFreeF_step (S : Schema) (f : Nat) (seg : Segment) (p : String)
    (X : Schema) (hfree : lazyPipeFreeF f S = true)
    (htrav : traverseSegment S seg p = .ok X) : lazyPipeFreeF f X = true := by
  cases S with
  | leaf tag =>
    cases seg <;> exact absurd htrav (by rw [traverseSegment] <;> simp)
  | object shape =>
    cases f with
    | zero => rw [lazyPipeFreeF] at hfree; exact absurd hfree (by decide)
    | succ f2 =>
      rw [lazyPipeFreeF] at hfree
      cases seg with
      | property name =>
        rw [show traverseSegment (.object shape) (.property name) p =
            (match shape.lookup name with
             | some child => TravOut.ok child
             | none => .err (.unknownProperty name p)) from rfl] at htrav
        cases hlk : shape.lookup name with
        | none =>
          rw [hlk] at htrav
          simp only [] at htrav
          exact TravOut.noConfusion htrav
        | some child =>
          rw [hlk] at htrav
          simp only [] at htrav
          injection htrav with h2
          rw [← h2]
          exact lazyPipeFreeF_mono f2 child (f2 + 1) (lookup_all hlk hfree) (by omega)
      | element => exact absurd htrav (by rw [show traverseSegment (.object shape) .element p = .err (.notElementAccessible "object" p) from rfl]; simp)
      | index i => exact absurd htrav (by rw [show traverseSegment (.object shape) (.index i) p = .err (.notIndexable i "object" p) from rfl]; simp)
  | array e =>
    cases f with
    | zero => rw [lazyPipeFreeF] at hfree; exact absurd hfree (by decide)
    | succ f2 =>
      rw [lazyPipeFreeF] at hfree
      cases seg with
      | property name => exact absurd htrav (by rw [show traverseSegment (.array e) (.property name) p = .err (.notAnObject name "array" p) from rfl]; simp)
      | element =>
        rw [show traverseSegment (.array e) .element p = .ok e from rfl] at htrav
        injection htrav with h2
        rw [← h2]
        exact lazyPipeFreeF_mono f2 e (f2 + 1) hfree (by omega)
      | index i => exact absurd htrav (by rw [show traverseSegment (.array e) (.index i) p = .err (.notIndexable i "array" p) from rfl]; simp)
  | record v =>
    cases f with
    | zero => rw [lazyPipeFreeF] at hfree; exact absurd hfree (by decide)
    | succ f2 =>
      rw [lazyPipeFreeF] at hfree
      cases seg with
      | property name => exact absurd htrav (by rw [show traverseSegment (.record v) (.property name) p = .err (.notAnObject name "record" p) from rfl]; simp)
      | element =>
        rw [show traverseSegment (.record v) .element p = .ok v from rfl] at htrav
        injection htrav with h2
        rw [← h2]
        exact lazyPipeFreeF_mono f2 v (f2 + 1) hfree (by omega)
      | index i => exact absurd htrav (by rw [show traverseSegment (.record v) (.index i) p = .err (.notIndexable i "record" p) from rfl]; simp)
  | tuple items =>
    cases f with
    | zero => rw [lazyPipeFreeF] at hfree; exact absurd hfree (by decide)
    | succ f2 =>
      rw [lazyPipeFreeF] at hfree
      cases seg with
      | property name => exact absurd htrav (by rw [show traverseSegment (.tuple items) (.property name) p = .err (.notAnObject name "tuple" p) from rfl]; simp)
      | element => exact absurd htrav (by rw [show traverseSegment (.tuple items) .element p = .err (.notElementAccessible "tuple" p) from rfl]; simp)
      | index i =>
        rw [show traverseSegment (.tuple items) (.index i) p =
            (if (items.length : Int) ≤ i then
              .err (.tupleIndexOutOfBounds i items.length p)
            else
              match jsArrayGet items i with
              | some x => TravOut.ok x
              | none => .undef) from rfl] at htrav
        by_cases hb : (items.length : Int) ≤ i
        · rw [if_pos hb] at htrav
          exact absurd htrav (by simp)
        · rw [if_neg hb] at htrav
          cases hget : jsArrayGet items i with
          | none =>
            rw [hget] at htrav
            simp only [] at htrav
            exact TravOut.noConfusion htrav
          | some x =>
            rw [hget] at htrav
            simp only [] at htrav
            injection htrav with h2
            rw [← h2]
            rw [List.all_eq_true] at hfree
            exact lazyPipeFreeF_mono f2 x (f2 + 1) (hfree x (jsArrayGet_mem hget)) (by omega)
  | union opts =>
    cases f with
    | zero => rw [lazyPipeFreeF] at hfree; exact absurd hfree (by decide)
    | succ f2 =>
      rw [lazyPipeFreeF] at hfree
      cases seg with
      | property name => exact absurd htrav (by rw [show traverseSegment (.union opts) (.property name) p = .err (.notAnObject name "union" p) from rfl]; simp)
      | element => exact absurd htrav (by rw [show traverseSegment (.union opts) .element p = .err (.notElementAccessible "union" p) from rfl]; simp)
      | index i =>
        rw [show traverseSegment (.union opts) (.index i) p =
            (if (opts.length : Int) ≤ i then
              .err (.unionIndexOutOfBounds i opts.length p)
            else
              match jsArrayGet opts i with
              | some x => TravOut.ok x
              | none => .undef) from rfl] at htrav
        by_cases hb : (opts.length : Int) ≤ i
        · rw [if_pos hb] at htrav
          exact absurd htrav (by simp)
        · rw [if_neg hb] at htrav
          cases hget : jsArrayGet opts i with
          | none =>
            rw [hget] at htrav
            simp only [] at htrav
            exact TravOut.noConfusion htrav
          | some x =>
            rw [hget] at htrav
            simp only [] at htrav
            injection htrav with h2
            rw [← h2]
            rw [List.all_eq_true] at hfree
            exact lazyPipeFreeF_mono f2 x (f2 + 1) (hfree x (jsArrayGet_mem hget)) (by omega)
  | optional t =>
    cases f with
    | zero => rw [lazyPipeFreeF] at hfree; exact absurd hfree (by decide)
    | succ f2 =>
      rw [lazyPipeFreeF] at hfree
      rw [traverseSegment_optional] at htrav
      exact lazyPipeFreeF_mono f2 X (f2 + 1)
        (lazyPipeFreeF_step t f2 seg p X hfree htrav) (by omega)
  | nullable t =>
    cases f with
    | zero => rw [lazyPipeFreeF] at hfree; exact absurd hfree (by decide)
    | succ f2 =>
      rw [lazyPipeFreeF] at hfree
      rw [traverseSegment_nullable] at htrav
      exact lazyPipeFreeF_mono f2 X (f2 + 1)
        (lazyPipeFreeF_step t f2 seg p X hfree htrav) (by omega)
  | default t =>
    cases f with
    | zero => rw [lazyPipeFreeF] at hfree; exact absurd hfree (by decide)
    | succ f2 =>
      rw [lazyPipeFreeF] at hfree
      rw [traverseSegment_default] at htrav
      exact lazyPipeFreeF_mono f2 X (f2 + 1)
        (lazyPipeFreeF_step t f2 seg p X hfree htrav) (by omega)
  | readonly t =>
    cases f with
    | zero => rw [lazyPipeFreeF] at hfree; exact absurd hfree (by decide)
    | succ f2 =>
      rw [lazyPipeFreeF] at hfree
      rw [traverseSegment_readonly] at htrav
      exact lazyPipeFreeF_mono f2 X (f2 + 1)
        (lazyPipeFreeF_step t f2 seg p X hfree htrav) (by omega)
  | lazy t =>
    cases f with
    | zero => rw [lazyPipeFreeF] at hfree; exact absurd hfree (by decide)
    | succ f2 => rw [lazyPipeFreeF] at hfree; exact absurd hfree (by decide)
  | pipe a b =>
    cases f with
    | zero => rw [lazyPipeFreeF] at hfree; exact absurd hfree (by decide)
    | succ f2 => rw [lazyPipeFreeF] at hfree; exact absurd hfree (by decide)
termination_by sizeOf S

/-! Agreement of one runtime traversal step with one static resolution step,
on canonical segments and lazy/pipe-free schemas. -/

theorem ExtractIndexTy_print (m : Nat) :
    ExtractIndexTy ('[' :: (natDecimal m ++ [']'])) = some m := by
  rw [show ExtractIndexTy ('[' :: (natDecimal m ++ [']'])) =
      (if (natDecimal m ++ [']']).getLast? = some ']' then
        if (natDecimal m ++ [']']).dropLast = [] then none
        else canonicalNat (natDecimal m ++ [']']).dropLast
      else none) from rfl]
  rw [List.getLast?_concat, List.dropLast_concat]
  rw [if_pos rfl, if_neg (natDecimal_ne_nil m), canonicalNat_natDecimal]

theorem ResolveSegment_agree (S : Schema) (f : Nat) (seg : Segment) (p : String)
    (X : Schema) (hfree : lazyPipeFreeF f S = true) (hseg : goodSeg seg = true)
    (htrav : traverseSegment S seg p = .ok X) :
    ResolveSegment S (printSeg seg) = some X := by
  cases S with
  | leaf tag =>
    cases seg <;> exact absurd htrav (by rw [traverseSegment] <;> simp)
  | object shape =>
    cases seg with
    | property name =>
      rw [show traverseSegment (.object shape) (.property name) p =
          (match shape.lookup name with
           | some child => TravOut.ok child
           | none => .err (.unknownProperty name p)) from rfl] at htrav
      cases hlk : shape.lookup name with
      | none =>
        rw [hlk] at htrav
        simp only [] at htrav
        exact TravOut.noConfusion htrav
      | some child =>
        rw [hlk] at htrav
        simp only [] at htrav
        injection htrav with h2
        rw [show ResolveSegment (.object shape) (printSeg (.property name)) =
            shape.lookup name.toList.asString from rfl, asString_toList, hlk, h2]
    | element => exact absurd htrav (by rw [show traverseSegment (.object shape) .element p = .err (.notElementAccessible "object" p) from rfl]; simp)
    | index i => exact absurd htrav (by rw [show traverseSegment (.object shape) (.index i) p = .err (.notIndexable i "object" p) from rfl]; simp)
  | array e =>
    cases seg with
    | property name => exact absurd htrav (by rw [show traverseSegment (.array e) (.property name) p = .err (.notAnObject name "array" p) from rfl]; simp)
    | element =>
      rw [show traverseSegment (.array e) .element p = .ok e from rfl] at htrav
      injection htrav with h2
      rw [← h2]
      rfl
    | index i => exact absurd htrav (by rw [show traverseSegment (.array e) (.index i) p = .err (.notIndexable i "array" p) from rfl]; simp)
  | record v =>
    cases seg with
    | property name => exact absurd htrav (by rw [show traverseSegment (.record v) (.property name) p = .err (.notAnObject name "record" p) from rfl]; simp)
    | element =>
      rw [show traverseSegment (.record v) .element p = .ok v from rfl] at htrav
      injection htrav with h2
      rw [← h2]
      rfl
    | index i => exact absurd htrav (by rw [show traverseSegment (.record v) (.index i) p = .err (.notIndexable i "record" p) from rfl]; simp)
  | tuple items =>
    cases seg with
    | property name => exact absurd htrav (by rw [show traverseSegment (.tuple items) (.property name) p = .err (.notAnObject name "tuple" p) from rfl]; simp)
    | element => exact absurd htrav (by rw [show traverseSegment (.tuple items) .element p = .err (.notElementAccessible "tuple" p) from rfl]; simp)
    | index i =>
      rw [goodSeg, decide_eq_true_eq] at hseg
      rw [show traverseSegment (.tuple items) (.index i) p =
          (if (items.length : Int) ≤ i then
            .err (.tupleIndexOutOfBounds i items.length p)
          else
            match jsArrayGet items i with
            | some x => TravOut.ok x
            | none => .undef) from rfl] at htrav
      by_cases hb : (items.length : Int) ≤ i
      · rw [if_pos hb] at htrav
        exact absurd htrav (by simp)
      · rw [if_neg hb] at htrav
        cases hget : jsArrayGet items i with
        | none =>
          rw [hget] at htrav
          simp only [] at htrav
          exact TravOut.noConfusion htrav
        | some x =>
          rw [hget] at htrav
          simp only [] at htrav
          injection htrav with h2
          rw [jsArrayGet, if_pos hseg] at hget
          rw [show ResolveSegment (.tuple items) (printSeg (.index i)) =
              (match ExtractIndexTy ('[' :: (natDecimal i.toNat ++ [']'])) with
               | some n => items.get? n
               | none => none) from rfl, ExtractIndexTy_print]
          simp only []
          rw [hget, h2]
  | union opts =>
    cases seg with
    | property name => exact absurd htrav (by rw [show traverseSegment (.union opts) (.property name) p = .err (.notAnObject name "union" p) from rfl]; simp)
    | element => exact absurd htrav (by rw [show traverseSegment (.union opts) .element p = .err (.notElementAccessible "union" p) from rfl]; simp)
    | index i =>
      rw [goodSeg, decide_eq_true_eq] at hseg
      rw [show traverseSegment (.union opts) (.index i) p =
          (if (opts.length : Int) ≤ i then
            .err (.unionIndexOutOfBounds i opts.length p)
          else
            match jsArrayGet opts i with
            | some x => TravOut.ok x
            | none => .undef) from rfl] at htrav
      by_cases hb : (opts.length : Int) ≤ i
      · rw [if_pos hb] at htrav
        exact absurd htrav (by simp)
      · rw [if_neg hb] at htrav
        cases hget : jsArrayGet opts i with
        | none =>
          rw [hget] at htrav
          simp only [] at htrav
          exact TravOut.noConfusion htrav
        | some x =>
          rw [hget] at htrav
          simp only [] at htrav
          injection htrav with h2
          rw [jsArrayGet, if_pos hseg] at hget
          rw [show ResolveSegment (.union opts) (printSeg (.index i)) =
              (match ExtractIndexTy ('[' :: (natDecimal i.toNat ++ [']'])) with
               | some n => opts.get? n
               | none => none) from rfl, ExtractIndexTy_print]
          simp only []
          rw [hget, h2]
  | optional t =>
    cases f with
    | zero => rw [lazyPipeFreeF] at hfree; exact absurd hfree (by decide)
    | succ f2 =>
      rw [lazyPipeFreeF] at hfree
      rw [traverseSegment_optional] at htrav
      rw [show ResolveSegment (.optional t) (printSeg seg) =
          ResolveSegment t (printSeg seg) from rfl]
      exact ResolveSegment_agree t f2 seg p X hfree hseg htrav
  | nullable t =>
    cases f with
    | zero => rw [lazyPipeFreeF] at hfree; exact absurd hfree (by decide)
    | succ f2 =>
      rw [lazyPipeFreeF] at hfree
      rw [traverseSegment_nullable] at htrav
      rw [show ResolveSegment (.nullable t) (printSeg seg) =
          ResolveSegment t (printSeg seg) from rfl]
      exact ResolveSegment_agree t f2 seg p X hfree hseg htrav
  | default t =>
    cases f with
    | zero => rw [lazyPipeFreeF] at hfree; exact absurd hfree (by decide)
    | succ f2 =>
      rw [lazyPipeFreeF] at hfree
      rw [traverseSegment_default] at htrav
      rw [show ResolveSegment (.default t) (printSeg seg) =
          ResolveSegment t (printSeg seg) from rfl]
      exact ResolveSegment_agree t f2 seg p X hfree hseg htrav
  | readonly t =>
    cases f with
    | zero => rw [lazyPipeFreeF] at hfree; exact absurd hfree (by decide)
    | succ f2 =>
      rw [lazyPipeFreeF] at hfree
      rw [traverseSegment_readonly] at htrav
      rw [show ResolveSegment (.readonly t) (printSeg seg) =
          ResolveSegment t (printSeg seg) from rfl]
      exact ResolveSegment_agree t f2 seg p X hfree hseg htrav
  | lazy t =>
    cases f with
    | zero => rw [lazyPipeFreeF] at hfree; exact absurd hfree (by decide)
    | succ f2 => rw [lazyPipeFreeF] at hfree; exact absurd hfree (by decide)
  | pipe a b =>
    cases f with
    | zero => rw [lazyPipeFreeF] at hfree; exact absurd hfree (by decide)
    | succ f2 => rw [lazyPipeFreeF] at hfree; exact absurd hfree (by decide)
termination_by sizeOf S

theorem ResolvePath_agree :
    ∀ (L : List Segment) (S : Schema) f p X,
      lazyPipeFreeF f S = true → goodSegs L = true →
      runSegments S L p = .ok X →
      ResolvePath S (L.map printSeg) = some X := by
  intro L
  induction L with
  | nil =>
    intro S f p X _ _ hrun
    rw [runSegments] at hrun
    injection hrun with h2
    rw [List.map_nil, ResolvePath, h2]
  | cons seg rest ih =>
    intro S f p X hfree hgood hrun
    rw [goodSegs, List.all_cons, Bool.and_eq_true] at hgood
    rw [runSegments] at hrun
    cases htrav : traverseSegment S seg p with
    | ok next =>
      rw [htrav] at hrun
      simp only [] at hrun
      have hstep := ResolveSegment_agree S f seg p next hfree hgood.1 htrav
      rw [List.map_cons, ResolvePath, hstep]
      simp only []
      exact ih next f p X (lazyPipeFreeF_step S f seg p next hfree htrav) hgood.2 hrun
    | undef =>
      rw [htrav] at hrun
      simp only [] at hrun
      by_cases hr : rest = []
      · rw [if_pos hr] at hrun
        exact SelectOut.noConfusion hrun
      · rw [if_neg hr] at hrun
        exact SelectOut.noConfusion hrun
    | err e =>
      rw [htrav] at hrun
      simp only [] at hrun
      exact SelectOut.noConfusion hrun

/-! Parser invariants: indices are non-negative and property names are
non-empty in every successful parse, and dots are skipped. -/

theorem inv_map_cons (s : Segment) (hs1 : segNonneg s = true)
    (hs2 : segNameNonempty s = true)
    (r : Except ParseError (List Segment))
    (h : parseAllNonneg r = true ∧ parseNoEmptyName r = true) :
    parseAllNonneg (r.map (fun segs => s :: segs)) = true ∧
      parseNoEmptyName (r.map (fun segs => s :: segs)) = true := by
  cases r with
  | error e => exact ⟨rfl, rfl⟩
  | ok l =>
    refine ⟨?_, ?_⟩
    · rw [show Except.map (fun segs => s :: segs) (Except.ok l) =
          Except.ok (s :: l) from rfl, parseAllNonneg, List.all_cons, hs1]
      have h1 := h.1
      rw [parseAllNonneg] at h1
      rw [h1]
      rfl
    · rw [show Except.map (fun segs => s :: segs) (Except.ok l) =
          Except.ok (s :: l) from rfl, parseNoEmptyName, List.all_cons, hs2]
      have h2 := h.2
      rw [parseNoEmptyName] at h2
      rw [h2]
      rfl

theorem parsePathGoF_inv :
    ∀ f cs i, parseAllNonneg (parsePathGoF f cs i) = true ∧
      parseNoEmptyName (parsePathGoF f cs i) = true := by
  intro f
  induction f with
  | zero => intro cs i; exact ⟨rfl, rfl⟩
  | succ f ih =>
    intro cs i
    cases cs with
    | nil => exact ⟨rfl, rfl⟩
    | cons c cs2 =>
      by_cases hdot : c = '.'
      · rw [parsePathGoF, if_pos hdot]
        exact ih cs2 (i + 1)
      · by_cases hbr : c = '['
        · rw [parsePathGoF, if_neg hdot, if_pos hbr]
          cases hsp : splitAtCh ']' cs2 with
          | none => exact ⟨rfl, rfl⟩
          | some pr =>
            obtain ⟨content, rest⟩ := pr
            simp only []
            by_cases hc : content = []
            · rw [if_pos hc]
              exact inv_map_cons .element rfl rfl _ (ih rest _)
            · rw [if_neg hc]
              cases hint : parseIntJS content.asString with
              | none => exact ⟨rfl, rfl⟩
              | some n =>
                simp only []
                by_cases hneg : n < 0
                · rw [if_pos hneg]
                  exact ⟨rfl, rfl⟩
                · rw [if_neg hneg]
                  refine inv_map_cons (.index n) ?_ rfl _ (ih rest _)
                  rw [segNonneg, decide_eq_true_eq]
                  omega
        · rw [parsePathGoF, if_neg hdot, if_neg hbr]
          by_cases hname : (c :: cs2).takeWhile (fun ch => !(ch = '.' || ch = '[')) = []
          · rw [if_pos hname]
            exact ⟨rfl, rfl⟩
          · rw [if_neg hname]
            refine inv_map_cons
              (.property ((c :: cs2).takeWhile (fun ch => !(ch = '.' || ch = '['))).asString)
              rfl ?_ _ (ih _ _)
            rw [segNameNonempty]
            simp only [Bool.not_eq_true', decide_eq_false_iff_not]
            intro hemp
            exact hname (asString_eq_empty hemp)

theorem parsePathGoF_dot (f : Nat) (cs : List Char) (i : Nat) :
    parsePathGoF (f + 1) ('.' :: cs) i = parsePathGoF f cs (i + 1) := by
  rw [parsePathGoF, if_pos rfl]

theorem parsePathGoF_dots :
    ∀ (n f i : Nat), n < f → parsePathGoF f (List.replicate n '.') i = .ok [] := by
  intro n
  induction n with
  | zero =>
    intro f i h
    cases f with
    | zero => omega
    | succ f2 => rfl
  | succ n ih =>
    intro f i h
    cases f with
    | zero => omega
    | succ f2 =>
      rw [List.replicate_succ, parsePathGoF_dot]
      exact ih f2 (i + 1) (by omega)

/-! A non-negative index segment never produces the undefined value, so select
never reaches a JavaScript crash. -/

theorem traverseSegment_ne_undef (S : Schema) (seg : Segment) (p : String)
    (hseg : segNonneg seg = true) : traverseSegment S seg p ≠ .undef := by
  cases S with
  | leaf tag =>
    cases seg with
    | property name =>
      rw [show traverseSegment (.leaf tag) (.property name) p =
          .err (.notAnObject name tag p) from rfl]
      intro h
      exact TravOut.noConfusion h
    | element =>
      rw [show traverseSegment (.leaf tag) .element p =
          .err (.notElementAccessible tag p) from rfl]
      intro h
      exact TravOut.noConfusion h
    | index i =>
      rw [show traverseSegment (.leaf tag) (.index i) p =
          .err (.notIndexable i tag p) from rfl]
      intro h
      exact TravOut.noConfusion h
  | object shape =>
    cases seg with
    | property name =>
      rw [show traverseSegment (.object shape) (.property name) p =
          (match shape.lookup name with
           | some child => TravOut.ok child
           | none => .err (.unknownProperty name p)) from rfl]
      cases hlk : shape.lookup name <;> simp only [] <;> intro h <;> exact TravOut.noConfusion h
    | element =>
      rw [show traverseSegment (.object shape) .element p =
          .err (.notElementAccessible "object" p) from rfl]
      intro h
      exact TravOut.noConfusion h
    | index i =>
      rw [show traverseSegment (.object shape) (.index i) p =
          .err (.notIndexable i "object" p) from rfl]
      intro h
      exact TravOut.noConfusion h
  | array e =>
    cases seg with
    | property name =>
      rw [show traverseSegment (.array e) (.property name) p =
          .err (.notAnObject name "array" p) from rfl]
      intro h
      exact TravOut.noConfusion h
    | element =>
      rw [show traverseSegment (.array e) .element p = .ok e from rfl]
      intro h
      exact TravOut.noConfusion h
    | index i =>
      rw [show traverseSegment (.array e) (.index i) p =
          .err (.notIndexable i "array" p) from rfl]
      intro h
      exact TravOut.noConfusion h
  | record v =>
    cases seg with
    | property name =>
      rw [show traverseSegment (.record v) (.property name) p =
          .err (.notAnObject name "record" p) from rfl]
      intro h
      exact TravOut.noConfusion h
    | element =>
      rw [show traverseSegment (.record v) .element p = .ok v from rfl]
      intro h
      exact TravOut.noConfusion h
    | index i =>
      rw [show traverseSegment (.record v) (.index i) p =
          .err (.notIndexable i "record" p) from rfl]
      intro h
      exact TravOut.noConfusion h
  | tuple items =>
    cases seg with
    | property name =>
      rw [show traverseSegment (.tuple items) (.property name) p =
          .err (.notAnObject name "tuple" p) from rfl]
      intro h
      exact TravOut.noConfusion h
    | element =>
      rw [show traverseSegment (.tuple items) .element p =
          .err (.notElementAccessible "tuple" p) from rfl]
      intro h
      exact TravOut.noConfusion h
    | index i =>
      rw [segNonneg, decide_eq_true_eq] at hseg
      rw [show traverseSegment (.tuple items) (.index i) p =
          (if (items.length : Int) ≤ i then
            .err (.tupleIndexOutOfBounds i items.length p)
          else
            match jsArrayGet items i with
            | some x => TravOut.ok x
            | none => .undef) from rfl]
      by_cases hb : (items.length : Int) ≤ i
      · rw [if_pos hb]
        intro h
        exact TravOut.noConfusion h
      · rw [if_neg hb]
        have hlt : i.toNat < items.length := by omega
        rw [jsArrayGet, if_pos hseg, List.get?_eq_get hlt]
        simp only []
        intro h
        exact TravOut.noConfusion h
  | union opts =>
    cases seg with
    | property name =>
      rw [show traverseSegment (.union opts) (.property name) p =
          .err (.notAnObject name "union" p) from rfl]
      intro h
      exact TravOut.noConfusion h
    | element =>
      rw [show traverseSegment (.union opts) .element p =
          .err (.notElementAccessible "union" p) from rfl]
      intro h
      exact TravOut.noConfusion h
    | index i =>
      rw [segNonneg, decide_eq_true_eq] at hseg
      rw [show traverseSegment (.union opts) (.index i) p =
          (if (opts.length : Int) ≤ i then
            .err (.unionIndexOutOfBounds i opts.length p)
          else
            match jsArrayGet opts i with
            | some x => TravOut.ok x
            | none => .undef) from rfl]
      by_cases hb : (opts.length : Int) ≤ i
      · rw [if_pos hb]
        intro h
        exact TravOut.noConfusion h
      · rw [if_neg hb]
        have hlt : i.toNat < opts.length := by omega
        rw [jsArrayGet, if_pos hseg, List.get?_eq_get hlt]
        simp only []
        intro h
        exact TravOut.noConfusion h
  | optional t =>
    rw [traverseSegment_optional]
    exact traverseSegment_ne_undef t seg p hseg
  | nullable t =>
    rw [traverseSegment_nullable]
    exact traverseSegment_ne_undef t seg p hseg
  | default t =>
    rw [traverseSegment_default]
    exact traverseSegment_ne_undef t seg p hseg
  | readonly t =>
    rw [traverseSegment_readonly]
    exact traverseSegment_ne_undef t seg p hseg
  | lazy t =>
    rw [traverseSegment_lazy]
    exact traverseSegment_ne_undef t seg p hseg
  | pipe a b =>
    rw [traverseSegment_pipe]
    exact traverseSegment_ne_undef b seg p hseg
termination_by sizeOf S

theorem runSegments_defined :
    ∀ (L : List Segment) (S : Schema) (p : String), L.all segNonneg = true →
      selectDefined (runSegments S L p) = true := by
  intro L
  induction L with
  | nil => intro S p _; rfl
  | cons seg rest ih =>
    intro S p hall
    rw [List.all_cons, Bool.and_eq_true] at hall
    rw [runSegments]
    cases htrav : traverseSegment S seg p with
    | ok next => exact ih next p hall.2
    | undef => exact absurd htrav (traverseSegment_ne_undef S seg p hall.1)
    | err e => rfl

/-! Resolution errors always carry the full path they were raised with. -/

theorem traverseSegment_err_path (S : Schema) (seg : Segment) (p : String)
    (e : ResolutionError) (htrav : traverseSegment S seg p = .err e) :
    e.pathOf = p := by
  cases S with
  | leaf tag =>
    cases seg with
    | property name =>
      rw [show traverseSegment (.leaf tag) (.property name) p =
          .err (.notAnObject name tag p) from rfl] at htrav
      injection htrav with h2
      rw [← h2]
      rfl
    | element =>
      rw [show traverseSegment (.leaf tag) .element p =
          .err (.notElementAccessible tag p) from rfl] at htrav
      injection htrav with h2
      rw [← h2]
      rfl
    | index i =>
      rw [show traverseSegment (.leaf tag) (.index i) p =
          .err (.notIndexable i tag p) from rfl] at htrav
      injection htrav with h2
      rw [← h2]
      rfl
  | object shape =>
    cases seg with
    | property name =>
      rw [show traverseSegment (.object shape) (.property name) p =
          (match shape.lookup name with
           | some child => TravOut.ok child
           | none => .err (.unknownProperty name p)) from rfl] at htrav
      cases hlk : shape.lookup name with
      | none =>
        rw [hlk] at htrav
        simp only [] at htrav
        injection htrav with h2
        rw [← h2]
        rfl
      | some child =>
        rw [hlk] at htrav
        simp only [] at htrav
        exact TravOut.noConfusion htrav
    | element =>
      rw [show traverseSegment (.object shape) .element p =
          .err (.notElementAccessible "object" p) from rfl] at htrav
      injection htrav with h2
      rw [← h2]
      rfl
    | index i =>
      rw [show traverseSegment (.object shape) (.index i) p =
          .err (.notIndexable i "object" p) from rfl] at htrav
      injection htrav with h2
      rw [← h2]
      rfl
  | array el =>
    cases seg with
    | property name =>
      rw [show traverseSegment (.array el) (.property name) p =
          .err (.notAnObject name "array" p) from rfl] at htrav
      injection htrav with h2
      rw [← h2]
      rfl
    | element =>
      rw [show traverseSegment (.array el) .element p = .ok el from rfl] at htrav
      exact TravOut.noConfusion htrav
    | index i =>
      rw [show traverseSegment (.array el) (.index i) p =
          .err (.notIndexable i "array" p) from rfl] at htrav
      injection htrav with h2
      rw [← h2]
      rfl
  | record v =>
    cases seg with
    | property name =>
      rw [show traverseSegment (.record v) (.property name) p =
          .err (.notAnObject name "record" p) from rfl] at htrav
      injection htrav with h2
      rw [← h2]
      rfl
    | element =>
      rw [show traverseSegment (.record v) .element p = .ok v from rfl] at htrav
      exact TravOut.noConfusion htrav
    | index i =>
      rw [show traverseSegment (.record v) (.index i) p =
          .err (.notIndexable i "record" p) from rfl] at htrav
      injection htrav with h2
      rw [← h2]
      rfl
  | tuple items =>
    cases seg with
    | property name =>
      rw [show traverseSegment (.tuple items) (.property name) p =
          .err (.notAnObject name "tuple" p) from rfl] at htrav
      injection htrav with h2
      rw [← h2]
      rfl
    | element =>
      rw [show traverseSegment (.tuple items) .element p =
          .err (.notElementAccessible "tuple" p) from rfl] at htrav
      injection htrav with h2
      rw [← h2]
      rfl
    | index i =>
      rw [show traverseSegment (.tuple items) (.index i) p =
          (if (items.length : Int) ≤ i then
            .err (.tupleIndexOutOfBounds i items.length p)
          else
            match jsArrayGet items i with
            | some x => TravOut.ok x
            | none => .undef) from rfl] at htrav
      by_cases hb : (items.length : Int) ≤ i
      · rw [if_pos hb] at htrav
        injection htrav with h2
        rw [← h2]
        rfl
      · rw [if_neg hb] at htrav
        cases hget : jsArrayGet items i with
        | none =>
          rw [hget] at htrav
          simp only [] at htrav
          exact TravOut.noConfusion htrav
        | some x =>
          rw [hget] at htrav
          simp only [] at htrav
          exact TravOut.noConfusion htrav
  | union opts =>
    cases seg with
    | property name =>
      rw [show traverseSegment (.union opts) (.property name) p =
          .err (.notAnObject name "union" p) from rfl] at htrav
      injection htrav with h2
      rw [← h2]
      rfl
    | element =>
      rw [show traverseSegment (.union opts) .element p =
          .err (.notElementAccessible "union" p) from rfl] at htrav
      injection htrav with h2
      rw [← h2]
      rfl
    | index i =>
      rw [show traverseSegment (.union opts) (.index i) p =
          (if (opts.length : Int) ≤ i then
            .err (.unionIndexOutOfBounds i opts.length p)
          else
            match jsArrayGet opts i with
            | some x => TravOut.ok x
            | none => .undef) from rfl] at htrav
      by_cases hb : (opts.length : Int) ≤ i
      · rw [if_pos hb] at htrav
        injection htrav with h2
        rw [← h2]
        rfl
      · rw [if_neg hb] at htrav
        cases hget : jsArrayGet opts i with
        | none =>
          rw [hget] at htrav
          simp only [] at htrav
          exact TravOut.noConfusion htrav
        | some x =>
          rw [hget] at htrav
          simp only [] at htrav
          exact TravOut.noConfusion htrav
  | optional t =>
    rw [traverseSegment_optional] at htrav
    exact traverseSegment_err_path t seg p e htrav
  | nullable t =>
    rw [traverseSegment_nullable] at htrav
    exact traverseSegment_err_path t seg p e htrav
  | default t =>
    rw [traverseSegment_default] at htrav
    exact traverseSegment_err_path t seg p e htrav
  | readonly t =>
    rw [traverseSegment_readonly] at htrav
    exact traverseSegment_err_path t seg p e htrav
  | lazy t =>
    rw [traverseSegment_lazy] at htrav
    exact traverseSegment_err_path t seg p e htrav
  | pipe a b =>
    rw [traverseSegment_pipe] at htrav
    exact traverseSegment_err_path b seg p e htrav
termination_by sizeOf S

theorem runSegments_err_path :
    ∀ (L : List Segment) (S : Schema) (p : String) (e : ResolutionError),
      runSegments S L p = .resolutionError e → e.pathOf = p := by
  intro L
  induction L with
  | nil =>
    intro S p e hrun
    rw [runSegments] at hrun
    exact SelectOut.noConfusion hrun
  | cons seg rest ih =>
    intro S p e hrun
    rw [runSegments] at hrun
    cases htrav : traverseSegment S seg p with
    | ok next =>
      rw [htrav] at hrun
      simp only [] at hrun
      exact ih next p e hrun
    | undef =>
      rw [htrav] at hrun
      simp only [] at hrun
      by_cases hr : rest = []
      · rw [if_pos hr] at hrun
        exact SelectOut.noConfusion hrun
      · rw [if_neg hr] at hrun
        exact SelectOut.noConfusion hrun
    | err e2 =>
      rw [htrav] at hrun
      simp only [] at hrun
      injection hrun with h2
      rw [← h2]
      exact traverseSegment_err_path S seg p e2 htrav

theorem goodSeg_name_ne_nil {n : String} (h : goodSeg (.property n) = true) :
    n.toList ≠ [] := by
  rw [goodSeg, Bool.and_eq_true] at h
  intro he
  rw [he] at h
  exact absurd h.1 (by decide)

theorem printSegs_ne_nil (s : Segment) (rest : List Segment)
    (hgood : goodSeg s = true) : printSegs (s :: rest) ≠ [] := by
  cases s with
  | property n =>
    obtain ⟨c, cs, hc⟩ : ∃ c cs, n.toList = c :: cs := by
      cases hnl : n.toList with
      | nil => exact absurd hnl (goodSeg_name_ne_nil hgood)
      | cons a as => exact ⟨a, as, rfl⟩
    rw [printSegs, printSeg, hc]
    simp
  | element =>
    rw [printSegs, printSeg]
    simp
  | index i =>
    rw [printSegs, printSeg]
    simp

/-! The claims. -/

/-- C1 counterexample: the static mirror does not track the runtime resolver.
On the schema lazy(object with key a of string) and the path a, the runtime
select unwraps the lazy wrapper and returns the string leaf, while the
compile-time SchemaAt has no case for the lazy kind and reduces to the bottom
type (none), so SchemaAt does not yield the type of the node the runtime
returns. -/
theorem static_mirror_misses_lazy :
    select (.lazy (.object [("a", .leaf "string")])) "a" = .ok (.leaf "string") ∧
      SchemaAt (.lazy (.object [("a", .leaf "string")])) "a" = none :=
  ⟨rfl, rfl⟩

/-- C1 amended: on schemas containing no lazy and no pipe wrapper and on
canonical mirror-friendly paths (non-empty property names without path
metacharacters, canonical decimal indices, and at most one property name
before each bracket group since the previous bracket group), every path that
the runtime select resolves to a node X is computed by SchemaAt as exactly
that node X. -/
theorem schemaAt_matches_select_on_mirror_fragment :
    ∀ (f : Nat) (S : Schema) (L : List Segment) (X : Schema),
      lazyPipeFreeF f S = true → goodSegs L = true → mirrorFriendly L = true →
      select S (printSegs L).asString = .ok X →
      SchemaAt S (printSegs L).asString = some X := by
  intro f S L X hfree hgood hmf hsel
  cases L with
  | nil =>
    rw [show (printSegs ([] : List Segment)).asString = "" from rfl] at hsel ⊢
    rw [select, if_pos rfl] at hsel
    injection hsel with hX
    rw [show SchemaAt S "" = some S from rfl, hX]
  | cons s rest =>
    have hs : goodSeg s = true := by
      rw [goodSegs, List.all_cons, Bool.and_eq_true] at hgood
      exact hgood.1
    have hne : (printSegs (s :: rest)).asString ≠ "" := by
      intro h
      exact printSegs_ne_nil s rest hs (asString_eq_empty h)
    rw [select, if_neg hne, parsePath, toList_asString,
      parsePathGoF_printSegs (s :: rest) _ 0 hgood (Nat.lt_succ_self _)] at hsel
    simp only [] at hsel
    rw [SchemaAt, ParsePathTy, toList_asString,
      ParsePathF_printSegs (s :: rest).length (s :: rest) le_rfl hgood hmf _
        (Nat.lt_succ_self _)]
    exact ResolvePath_agree (s :: rest) S f _ X hfree hgood hsel

/-- C1 amended witness: the agreement at the schema
object(users : array(object(name : string))) and the path users[].name,
where both sides produce the string leaf. -/
theorem schemaAt_matches_select_on_mirror_fragment_witness :
    SchemaAt (.object [("users", .array (.object [("name", .leaf "string")]))])
      (printSegs [.property "users", .element, .property "name"]).asString =
      some (.leaf "string") :=
  schemaAt_matches_select_on_mirror_fragment 4
    (.object [("users", .array (.object [("name", .leaf "string")]))])
    [.property "users", .element, .property "name"] (.leaf "string")
    (by rfl) (by rfl) (by rfl) (by rfl)

/-- C2 counterexample: the claim says any bracket content other than a plain
non-negative base-10 integer fails parsing, but the source uses parseInt,
which ignores trailing characters: the path with bracket content 1abc parses
successfully to the segment Index(1). -/
theorem bracket_trailing_garbage_accepted :
    parsePath "[1abc]" = .ok [.index 1] := rfl

/-- C2 amended: non-empty bracket content is evaluated with JavaScript
parseInt semantics: leading whitespace and a sign are consumed and the value
is that of the maximal leading digit run, so the parse succeeds with Index(n)
exactly when parseInt yields a non-negative value, and fails with the
invalid-index MalformedPath exactly when parseInt yields NaN or a negative
value. -/
theorem bracket_content_follows_parseInt :
    ∀ (content : List Char), content ≠ [] →
      content.all (fun c => !(c = ']')) = true →
      parsePath ('[' :: (content ++ [']'])).asString =
        (match parseIntJS content.asString with
         | none => .error (.invalidIndex content.asString 0)
         | some n =>
           if n < 0 then .error (.invalidIndex content.asString 0)
           else .ok [.index n]) := by
  intro content hne hnr
  rw [parsePath, toList_asString]
  have hlen : ('[' :: (content ++ [']'])).length + 1 = (content.length + 2) + 1 := by
    simp
  rw [hlen, parsePathGoF, if_neg (by decide), if_pos rfl, splitAtCh_append _ hnr]
  simp only []
  rw [if_neg hne]
  cases hint : parseIntJS content.asString with
  | none => rfl
  | some n =>
    simp only []
    by_cases hneg : n < 0
    · rw [if_pos hneg, if_pos hneg]
    · rw [if_neg hneg, if_neg hneg]
      rw [show parsePathGoF (content.length + 2) ([] : List Char)
          (0 + content.length + 2) = .ok [] from rfl]
      rfl

/-- C2 amended witness: content with a leading plus sign is accepted and
yields the index 5. -/
theorem bracket_content_follows_parseInt_witness :
    parsePath "[+5]" = .ok [.index 5] := by
  have h := bracket_content_follows_parseInt "+5".toList (by decide) (by decide)
  rw [show ('[' :: ("+5".toList ++ [']'])).asString = "[+5]" from rfl] at h
  rw [h]
  rfl

/-- C3 counterexample: the claim says doubled separators, trailing dots and
the one-character dot path fail with MalformedPath, but the parser silently
skips every dot found at the start of a segment: all three parse
successfully, with the empty segments dropped. -/
theorem empty_segments_never_fail :
    parsePath "a..b" = .ok [.property "a", .property "b"] ∧
      parsePath "a." = .ok [.property "a"] ∧
      parsePath "." = .ok [] :=
  ⟨rfl, rfl, rfl⟩

/-- C3 amended: a dot at the cursor is always skipped, so doubled separators
and trailing dots never raise an error and are elided from the segment list;
independently, no property segment the parser emits ever has an empty name. -/
theorem dots_skipped_and_names_nonempty :
    (∀ (f : Nat) (cs : List Char) (i : Nat),
      parsePathGoF (f + 1) ('.' :: cs) i = parsePathGoF f cs (i + 1)) ∧
      (∀ path : String, parseNoEmptyName (parsePath path) = true) :=
  ⟨fun f cs i => parsePathGoF_dot f cs i,
   fun _ => (parsePathGoF_inv _ _ _).2⟩

/-- C4: resolving a path of at least one segment against a schema wrapped in
any finite chain of optional, nullable, default, readonly, lazy and pipe
wrappers returns exactly what resolving the same path against the wrapped
container directly returns (for pipe, the chain continues through the output
child); and a path whose final segment lands on a child returns that stored
child itself, wrapper-kinded or not, never an unwrapped node. -/
theorem wrapper_chain_transparent :
    (∀ (ws : List WrapKind) (C : Schema) (path : String) (segs : List Segment),
      parsePath path = .ok segs → segs ≠ [] →
      select (wrapChain ws C) path = select C path) ∧
    (∀ (shape : List (String × Schema)) (name : String) (W : Schema) (p : String),
      shape.lookup name = some W →
      traverseSegment (.object shape) (.property name) p = .ok W) := by
  constructor
  · intro ws C path segs hp hne
    have hpath : path ≠ "" := by
      intro h
      rw [h, show parsePath "" = .ok [] from rfl] at hp
      injection hp with h2
      exact hne h2.symm
    rw [select, select, if_neg hpath, if_neg hpath, hp]
    simp only []
    cases segs with
    | nil => exact absurd rfl hne
    | cons seg rest => exact runSegments_wrapChain ws C seg rest path
  · intro shape name W p h
    rw [show traverseSegment (.object shape) (.property name) p =
        (match shape.lookup name with
         | some child => TravOut.ok child
         | none => TravOut.err (.unknownProperty name p)) from rfl, h]

/-- C4 witness: an optional wrapper around an object is transparent for the
one-segment path a, and a path ending on an optional-wrapped child returns
the wrapper itself. -/
theorem wrapper_chain_transparent_witness :
    select (wrapChain [WrapKind.optional] (.object [("a", .leaf "string")])) "a" =
        select (.object [("a", .leaf "string")]) "a" ∧
      traverseSegment (.object [("opt", .optional (.leaf "string"))])
        (.property "opt") "opt" = .ok (.optional (.leaf "string")) :=
  ⟨wrapper_chain_transparent.1 [WrapKind.optional] (.object [("a", .leaf "string")])
      "a" [.property "a"] (by rfl) (by decide),
   wrapper_chain_transparent.2 [("opt", .optional (.leaf "string"))] "opt"
      (.optional (.leaf "string")) "opt" (by rfl)⟩

/-- C5: dispatching a Property(name) segment against an object schema returns
exactly the child stored in the shape under that key when the key is present,
and otherwise fails with the unknown-property error naming the property and
the full path; the unknown-property message interpolates both. -/
theorem object_property_dispatch :
    ∀ (shape : List (String × Schema)) (name p : String),
      traverseSegment (.object shape) (.property name) p =
        (match shape.lookup name with
         | some child => TravOut.ok child
         | none => TravOut.err (.unknownProperty name p)) ∧
      errMsg (.unknownProperty name p) =
        "Invalid path \"" ++ p ++ "\": property \"" ++ name ++
          "\" does not exist on object schema" :=
  fun _ _ _ => ⟨rfl, rfl⟩

/-- C6: an Index(n) segment against a tuple returns the item at n when n is
in range and fails with the tuple out-of-bounds error carrying n, the item
count and the full path otherwise; the identical rule holds for a union over
its options; and an Index segment against any non-wrapper kind other than
tuple and union fails with the not-indexable error naming the actual kind. -/
theorem index_dispatch :
    ∀ (items opts : List Schema) (S : Schema) (n : Nat) (i : Int) (p : String)
      (X : Schema),
      (items.get? n = some X →
        traverseSegment (.tuple items) (.index (n : Int)) p = .ok X) ∧
      (items.length ≤ n →
        traverseSegment (.tuple items) (.index (n : Int)) p =
          .err (.tupleIndexOutOfBounds (n : Int) items.length p)) ∧
      (opts.get? n = some X →
        traverseSegment (.union opts) (.index (n : Int)) p = .ok X) ∧
      (opts.length ≤ n →
        traverseSegment (.union opts) (.index (n : Int)) p =
          .err (.unionIndexOutOfBounds (n : Int) opts.length p)) ∧
      (isWrapperKind S = false → isTupleOrUnion S = false →
        traverseSegment S (.index i) p = .err (.notIndexable i S.kind p)) := by
  intro items opts S n i p X
  refine ⟨?_, ?_, ?_, ?_, ?_⟩
  · intro h
    obtain ⟨hlt, _⟩ := List.get?_eq_some.mp h
    rw [show traverseSegment (.tuple items) (.index (n : Int)) p =
        (if (items.length : Int) ≤ (n : Int) then
          .err (.tupleIndexOutOfBounds (n : Int) items.length p)
        else
          match jsArrayGet items (n : Int) with
          | some x => TravOut.ok x
          | none => .undef) from rfl]
    rw [if_neg (by omega), jsArrayGet, if_pos (by omega), Int.toNat_natCast, h]
  · intro h
    rw [show traverseSegment (.tuple items) (.index (n : Int)) p =
        (if (items.length : Int) ≤ (n : Int) then
          .err (.tupleIndexOutOfBounds (n : Int) items.length p)
        else
          match jsArrayGet items (n : Int) with
          | some x => TravOut.ok x
          | none => .undef) from rfl]
    rw [if_pos (by omega)]
  · intro h
    obtain ⟨hlt, _⟩ := List.get?_eq_some.mp h
    rw [show traverseSegment (.union opts) (.index (n : Int)) p =
        (if (opts.length : Int) ≤ (n : Int) then
          .err (.unionIndexOutOfBounds (n : Int) opts.length p)
        else
          match jsArrayGet opts (n : Int) with
          | some x => TravOut.ok x
          | none => .undef) from rfl]
    rw [if_neg (by omega), jsArrayGet, if_pos (by omega), Int.toNat_natCast, h]
  · intro h
    rw [show traverseSegment (.union opts) (.index (n : Int)) p =
        (if (opts.length : Int) ≤ (n : Int) then
          .err (.unionIndexOutOfBounds (n : Int) opts.length p)
        else
          match jsArrayGet opts (n : Int) with
          | some x => TravOut.ok x
          | none => .undef) from rfl]
    rw [if_pos (by omega)]
  · intro hw ht
    cases S with
    | leaf tag => rfl
    | object shape => rfl
    | array e => rfl
    | record v => rfl
    | tuple xs => rw [isTupleOrUnion] at ht; exact Bool.noConfusion ht
    | union xs => rw [isTupleOrUnion] at ht; exact Bool.noConfusion ht
    | optional t => rw [isWrapperKind] at hw; exact Bool.noConfusion hw
    | nullable t => rw [isWrapperKind] at hw; exact Bool.noConfusion hw
    | default t => rw [isWrapperKind] at hw; exact Bool.noConfusion hw
    | readonly t => rw [isWrapperKind] at hw; exact Bool.noConfusion hw
    | lazy t => rw [isWrapperKind] at hw; exact Bool.noConfusion hw
    | pipe a b => rw [isWrapperKind] at hw; exact Bool.noConfusion hw

/-- C6 witness: an in-range tuple index returns the item, an out-of-range one
raises the out-of-bounds error with index, length and path, and an index
against a string leaf raises the not-indexable error naming the kind. -/
theorem index_dispatch_witness :
    traverseSegment (.tuple [.leaf "number", .leaf "string"]) (.index 1) "c[1]" =
        .ok (.leaf "string") ∧
      traverseSegment (.tuple [.leaf "number"]) (.index 5) "c[5]" =
        .err (.tupleIndexOutOfBounds 5 1 "c[5]") ∧
      traverseSegment (.leaf "string") (.index 0) "name[0]" =
        .err (.notIndexable 0 "string" "name[0]") := by
  refine ⟨?_, ?_, ?_⟩
  · exact (index_dispatch [.leaf "number", .leaf "string"] [] (.leaf "x") 1 0 "c[1]"
      (.leaf "string")).1 (by rfl)
  · exact ((index_dispatch [.leaf "number"] [] (.leaf "x") 5 0 "c[5]"
      (.leaf "x")).2).1 (by decide)
  · exact ((((index_dispatch [] [] (.leaf "string") 0 0 "name[0]"
      (.leaf "x")).2).2).2).2 (by rfl) (by rfl)

/-- C7: selecting the empty path returns the schema itself unchanged for
every schema, wrappers included, with no unwrapping and no traversal. -/
theorem empty_path_identity : ∀ S : Schema, select S "" = .ok S :=
  fun _ => rfl

/-- C8: whenever select fails with a resolution error, of any of its reasons,
the message of that error embeds the complete original path string supplied
by the caller. -/
theorem resolution_error_embeds_path :
    ∀ (S : Schema) (path : String) (e : ResolutionError),
      select S path = .resolutionError e →
      ∃ pre post, errMsg e = pre ++ path ++ post := by
  intro S path e h
  have hpath : e.pathOf = path := by
    rw [select] at h
    by_cases hp : path = ""
    · rw [if_pos hp] at h
      exact SelectOut.noConfusion h
    · rw [if_neg hp] at h
      cases hps : parsePath path with
      | error e2 =>
        rw [hps] at h
        simp only [] at h
        exact SelectOut.noConfusion h
      | ok segs =>
        rw [hps] at h
        simp only [] at h
        exact runSegments_err_path segs S path e h
  rw [← hpath]
  cases e with
  | notAnObject prop kind p =>
    exact ⟨"Invalid path \"",
      "\": cannot access property \"" ++ prop ++ "\" on non-object schema (got " ++
        kind ++ ")",
      by rw [errMsg, ResolutionError.pathOf]; simp [String.append_assoc]⟩
  | unknownProperty prop p =>
    exact ⟨"Invalid path \"",
      "\": property \"" ++ prop ++ "\" does not exist on object schema",
      by rw [errMsg, ResolutionError.pathOf]; simp [String.append_assoc]⟩
  | notElementAccessible kind p =>
    exact ⟨"Invalid path \"",
      "\": cannot use [] on non-array/record schema (got " ++ kind ++ ")",
      by rw [errMsg, ResolutionError.pathOf]; simp [String.append_assoc]⟩
  | tupleIndexOutOfBounds i len p =>
    exact ⟨"Invalid path \"",
      "\": tuple index " ++ toString i ++ " out of bounds (length " ++
        toString len ++ ")",
      by rw [errMsg, ResolutionError.pathOf]; simp [String.append_assoc]⟩
  | unionIndexOutOfBounds i len p =>
    exact ⟨"Invalid path \"",
      "\": union index " ++ toString i ++ " out of bounds (" ++ toString len ++
        " options)",
      by rw [errMsg, ResolutionError.pathOf]; simp [String.append_assoc]⟩
  | notIndexable i kind p =>
    exact ⟨"Invalid path \"",
      "\": cannot use [" ++ toString i ++ "] on non-tuple/union schema (got " ++
        kind ++ ")",
      by rw [errMsg, ResolutionError.pathOf]; simp [String.append_assoc]⟩

/-- C8 witness: a property access on a string leaf fails and its message
embeds the original path. -/
theorem resolution_error_embeds_path_witness :
    ∃ pre post, errMsg (.notAnObject "a" "string" "a") = pre ++ "a" ++ post :=
  resolution_error_embeds_path (.leaf "string") "a"
    (.notAnObject "a" "string" "a") (by rfl)

/-- C9: every successful parse carries only non-negative index segments, and
consequently select never produces the undefined value or a JavaScript crash,
so the single upper-bound comparison of the resolver suffices. -/
theorem parser_indices_nonneg_and_bounds_safe :
    ∀ (S : Schema) (path : String),
      parseAllNonneg (parsePath path) = true ∧
        selectDefined (select S path) = true := by
  intro S path
  constructor
  · exact (parsePathGoF_inv _ _ _).1
  · rw [select]
    by_cases hp : path = ""
    · rw [if_pos hp]
      rfl
    · rw [if_neg hp]
      cases hps : parsePath path with
      | error e =>
        simp only []
        rfl
      | ok segs =>
        simp only []
        apply runSegments_defined
        have h9 : parseAllNonneg (parsePath path) = true := (parsePathGoF_inv _ _ _).1
        rw [hps, parseAllNonneg] at h9
        exact h9

/-- C10: a non-empty path made only of dots parses to the empty segment list,
so select returns the schema unchanged rather than failing, exactly as for
the empty path. -/
theorem dot_only_paths_identity :
    ∀ (S : Schema) (n : Nat), 0 < n →
      select S (List.replicate n '.').asString = .ok S := by
  intro S n hn
  have hne : (List.replicate n '.').asString ≠ "" := by
    intro h
    have h0 := asString_eq_empty h
    have h1 := congrArg List.length h0
    rw [List.length_replicate, List.length_nil] at h1
    omega
  rw [select, if_neg hne, parsePath, toList_asString,
    parsePathGoF_dots n _ 0 (by rw [List.length_replicate]; omega)]
  rfl

/-- C10 witness: the two-dot path on a string leaf returns the leaf itself. -/
theorem dot_only_paths_identity_witness :
    select (.leaf "x") (List.replicate 2 '.').asString = .ok (.leaf "x") :=
  dot_only_paths_identity (.leaf "x") 2 (by decide)

end ZodSelect
